import Mathlib

/-!
# Convolution filters of edetect (CPU backend)

Shallow embedding of `src/edetect/cpu/CpuConvolutionFilter.cxx`: the full 2D,
the row and the column convolution, with their three-segment loops, their
`unsigned int` index arithmetic and their pointer arithmetic over a strided
buffer.  Samples and weights are rationals.  `convolve` forms its sums and products
exactly; `convolveRounded` rounds each product and each sum as `float` arithmetic does,
`roundF32` being the rounding of IEEE 754 binary32.

The members `mRadius` and `mKernel` of the filter classes, whose declarations are not
among the sources, are parameters: `mRadius` is an `unsigned int`, as the `radius` of
`generateKernel` is, and `mKernel k` is the weight `mKernel[k]`.  The locals `row`,
`col`, `start`, `end`, `i`, `j`, `k` are `unsigned int` and their arithmetic wraps at
`2^32`; byte offsets into the storage of an image are natural numbers, the products
with `stride()` and `sizeof(float)` being taken at pointer width.
-/

namespace EDetect

/-! ## Machine arithmetic -/

/-- Addition of two `unsigned int` values (32 bits, wrapping). -/
def u32add (a b : Nat) : Nat := (a + b) % 4294967296

/-- Subtraction of two `unsigned int` values (32 bits, wrapping); both operands
are below `2^32`. -/
def u32sub (a b : Nat) : Nat := (a + 4294967296 - b) % 4294967296

/-- Multiplication of two `unsigned int` values (32 bits, wrapping). -/
def u32mul (a b : Nat) : Nat := (a * b) % 4294967296

/-! ## Images -/

/-- Modelled from the spec: the declaration of `IImage` (IImage.hxx) is not among
the sources.  An image has `rows`, `columns`, a `stride` in bytes and raw
storage; `data off` is the 32-bit sample stored at byte offset `off` from
`data()`.  The sample at `(row, col)` is at `row * stride + col * sizeof(float)`. -/
structure IImage where
  rows : Nat
  columns : Nat
  stride : Nat
  data : Nat → ℚ

/-- Sample of the image at `(row, col)`: the spec's `base + row*stride + col*sizeof(float)`. -/
def IImage.sample (img : IImage) (row col : Nat) : ℚ :=
  img.data (row * img.stride + 4 * col)

/-- Assignment `*dstp = x` through a `float*` at byte offset `off` of the image's storage. -/
def IImage.store (img : IImage) (off : Nat) (x : ℚ) : IImage :=
  { img with data := Function.update img.data off x }

/-! ## Loops -/

/-- The C loop `for (; cond k; ++k) body`, entered with counter `k` and state `s`;
returns the counter and the state at exit.  `fuel` bounds the number of
iterations. -/
def forLoop {σ : Type} (cond : Nat → Bool) (body : Nat → σ → σ) :
    Nat → Nat → σ → Nat × σ
  | 0, k, s => (k, s)
  | fuel + 1, k, s =>
    if cond k then forLoop cond body fuel (k + 1) (body k s) else (k, s)

/-- A moving source pointer `p` (byte offset into the source storage) together
with the accumulator `x` of one output pixel. -/
structure Cursor (α : Type) where
  p : Nat
  x : α

/-- A memory access of a convolution pass: a sample read at a byte offset of the
source, a weight read at an index of the kernel, a sample written at a byte offset
of the destination. -/
inductive Access where
  | srcRead (off : Nat)
  | kernelRead (idx : Nat)
  | destWrite (off : Nat)
  deriving DecidableEq, Repr

/-! ## CpuRowConvolutionFilter -/

/-- Body of the pixel loop of `CpuRowConvolutionFilter::convolve` (lines 95-117):
the value of `x` when it is stored.  `acc x p k` stands for the statement
`x += *srcp * mKernel[k]` executed with `srcp` at byte offset `p`. -/
def CpuRowConvolutionFilter.pixel {α : Type} (acc : α → Nat → Nat → α) (x0 : α)
    (mRadius : Nat) (src : IImage) (row col : Nat) : α :=
  let start := if col < mRadius then u32sub mRadius col else 0
  let end_ :=
    if src.columns ≤ u32add col mRadius
    then u32sub (u32add (u32sub src.columns col) mRadius) 1
    else u32mul 2 mRadius
  let srcp := row * src.stride + 4 * u32add (u32sub col mRadius) start
  let l1 := forLoop (fun k => decide (k < start))
    (fun k s => ⟨s.p, acc s.x s.p k⟩) start 0 (⟨srcp, x0⟩ : Cursor α)
  let l2 := forLoop (fun k => decide (k < end_))
    (fun k s => ⟨s.p + 4, acc s.x s.p k⟩) end_ l1.1 l1.2
  let l3 := forLoop (fun k => decide (k ≤ u32mul 2 mRadius))
    (fun k s => ⟨s.p, acc s.x s.p k⟩) (u32mul 2 mRadius + 1) l2.1 l2.2
  l3.2.x

/-- The loop nest of `CpuRowConvolutionFilter::convolve` (lines 92-120), parametric
in what accumulating a tap (`acc`) and storing a pixel (`store`) do. -/
def CpuRowConvolutionFilter.run {α τ : Type} (acc : α → Nat → Nat → α) (x0 : α)
    (store : τ → Nat → α → τ) (mRadius destStride : Nat) (src : IImage) (t0 : τ) : τ :=
  (forLoop (fun row => decide (row < src.rows))
    (fun row t =>
      (forLoop (fun col => decide (col < src.columns))
        (fun col t =>
          store t (row * destStride + 4 * col)
            (CpuRowConvolutionFilter.pixel acc x0 mRadius src row col))
        src.columns 0 t).2)
    src.rows 0 t0).2

/-- The destination after `CpuRowConvolutionFilter::convolve(dest, src)` for a filter
with members `mRadius` and `mKernel`.  The source is read-only and distinct from
the destination. -/
def CpuRowConvolutionFilter.convolve (mRadius : Nat) (mKernel : Nat → ℚ)
    (dest src : IImage) : IImage :=
  CpuRowConvolutionFilter.run (fun x p k => x + src.data p * mKernel k) 0
    IImage.store mRadius dest.stride src dest

/-- The memory accesses of `CpuRowConvolutionFilter::convolve(dest, src)`, in
program order. -/
def CpuRowConvolutionFilter.accesses (mRadius destStride : Nat) (src : IImage) :
    List Access :=
  CpuRowConvolutionFilter.run
    (fun l p k => l ++ [Access.srcRead p, Access.kernelRead k]) []
    (fun t off l => t ++ l ++ [Access.destWrite off]) mRadius destStride src []

/-! ## CpuColumnConvolutionFilter -/

/-- Body of the pixel loop of `CpuColumnConvolutionFilter::convolve` (lines 135-157). -/
def CpuColumnConvolutionFilter.pixel {α : Type} (acc : α → Nat → Nat → α) (x0 : α)
    (mRadius : Nat) (src : IImage) (row col : Nat) : α :=
  let start := if row < mRadius then u32sub mRadius row else 0
  let end_ :=
    if src.rows ≤ u32add row mRadius
    then u32sub (u32add (u32sub src.rows row) mRadius) 1
    else u32mul 2 mRadius
  let srcp := u32add (u32sub row mRadius) start * src.stride + col * 4
  let l1 := forLoop (fun i => decide (i < start))
    (fun i s => ⟨s.p, acc s.x s.p i⟩) start 0 (⟨srcp, x0⟩ : Cursor α)
  let l2 := forLoop (fun i => decide (i < end_))
    (fun i s => ⟨s.p + src.stride, acc s.x s.p i⟩) end_ l1.1 l1.2
  let l3 := forLoop (fun i => decide (i ≤ u32mul 2 mRadius))
    (fun i s => ⟨s.p, acc s.x s.p i⟩) (u32mul 2 mRadius + 1) l2.1 l2.2
  l3.2.x

/-- The loop nest of `CpuColumnConvolutionFilter::convolve` (lines 132-160). -/
def CpuColumnConvolutionFilter.run {α τ : Type} (acc : α → Nat → Nat → α) (x0 : α)
    (store : τ → Nat → α → τ) (mRadius destStride : Nat) (src : IImage) (t0 : τ) : τ :=
  (forLoop (fun row => decide (row < src.rows))
    (fun row t =>
      (forLoop (fun col => decide (col < src.columns))
        (fun col t =>
          store t (row * destStride + 4 * col)
            (CpuColumnConvolutionFilter.pixel acc x0 mRadius src row col))
        src.columns 0 t).2)
    src.rows 0 t0).2

/-- The destination after `CpuColumnConvolutionFilter::convolve(dest, src)`. -/
def CpuColumnConvolutionFilter.convolve (mRadius : Nat) (mKernel : Nat → ℚ)
    (dest src : IImage) : IImage :=
  CpuColumnConvolutionFilter.run (fun x p k => x + src.data p * mKernel k) 0
    IImage.store mRadius dest.stride src dest

/-- The memory accesses of `CpuColumnConvolutionFilter::convolve(dest, src)`. -/
def CpuColumnConvolutionFilter.accesses (mRadius destStride : Nat) (src : IImage) :
    List Access :=
  CpuColumnConvolutionFilter.run
    (fun l p k => l ++ [Access.srcRead p, Access.kernelRead k]) []
    (fun t off l => t ++ l ++ [Access.destWrite off]) mRadius destStride src []

/-! ## CpuConvolutionFilter -/

/-- The three `j` loops of `CpuConvolutionFilter::convolve` (lines 50-56, repeated at
60-66 and 70-76) for kernel row `i`, entered with `rowp` and the accumulator `x`;
`acc x p idx` stands for `x += *colp * mKernel[idx]` with `colp` at byte offset `p`. -/
def CpuConvolutionFilter.columnLoops {α : Type} (acc : α → Nat → Nat → α)
    (mRadius cstart cend i rowp : Nat) (x : α) : α :=
  let l1 := forLoop (fun j => decide (j < cstart))
    (fun j s => ⟨s.p, acc s.x s.p (u32add (u32mul i (u32add (u32mul 2 mRadius) 1)) j)⟩)
    cstart 0 (⟨rowp, x⟩ : Cursor α)
  let l2 := forLoop (fun j => decide (j < cend))
    (fun j s => ⟨s.p + 4, acc s.x s.p (u32add (u32mul i (u32add (u32mul 2 mRadius) 1)) j)⟩)
    cend l1.1 l1.2
  let l3 := forLoop (fun j => decide (j ≤ u32mul 2 mRadius))
    (fun j s => ⟨s.p, acc s.x s.p (u32add (u32mul i (u32add (u32mul 2 mRadius) 1)) j)⟩)
    (u32mul 2 mRadius + 1) l2.1 l2.2
  l3.2.x

/-- Body of the pixel loop of `CpuConvolutionFilter::convolve` (lines 23-77). -/
def CpuConvolutionFilter.pixel {α : Type} (acc : α → Nat → Nat → α) (x0 : α)
    (mRadius : Nat) (src : IImage) (row col : Nat) : α :=
  let cstart := if col < mRadius then u32sub mRadius col else 0
  let rstart := if row < mRadius then u32sub mRadius row else 0
  let cend :=
    if src.columns ≤ u32add col mRadius
    then u32sub (u32add (u32sub src.columns col) mRadius) 1
    else u32mul 2 mRadius
  let rend :=
    if src.rows ≤ u32add row mRadius
    then u32sub (u32add (u32sub src.rows row) mRadius) 1
    else u32mul 2 mRadius
  let rowp := u32add (u32sub row mRadius) rstart * src.stride
    + u32add (u32sub col mRadius) cstart * 4
  let l1 := forLoop (fun i => decide (i < rstart))
    (fun i s => ⟨s.p, CpuConvolutionFilter.columnLoops acc mRadius cstart cend i s.p s.x⟩)
    rstart 0 (⟨rowp, x0⟩ : Cursor α)
  let l2 := forLoop (fun i => decide (i < rend))
    (fun i s => ⟨s.p + src.stride,
      CpuConvolutionFilter.columnLoops acc mRadius cstart cend i s.p s.x⟩)
    rend l1.1 l1.2
  let l3 := forLoop (fun i => decide (i ≤ u32mul 2 mRadius))
    (fun i s => ⟨s.p, CpuConvolutionFilter.columnLoops acc mRadius cstart cend i s.p s.x⟩)
    (u32mul 2 mRadius + 1) l2.1 l2.2
  l3.2.x

/-- The loop nest of `CpuConvolutionFilter::convolve` (lines 20-80). -/
def CpuConvolutionFilter.run {α τ : Type} (acc : α → Nat → Nat → α) (x0 : α)
    (store : τ → Nat → α → τ) (mRadius destStride : Nat) (src : IImage) (t0 : τ) : τ :=
  (forLoop (fun row => decide (row < src.rows))
    (fun row t =>
      (forLoop (fun col => decide (col < src.columns))
        (fun col t =>
          store t (row * destStride + 4 * col)
            (CpuConvolutionFilter.pixel acc x0 mRadius src row col))
        src.columns 0 t).2)
    src.rows 0 t0).2

/-- The destination after `CpuConvolutionFilter::convolve(dest, src)`. -/
def CpuConvolutionFilter.convolve (mRadius : Nat) (mKernel : Nat → ℚ)
    (dest src : IImage) : IImage :=
  CpuConvolutionFilter.run (fun x p k => x + src.data p * mKernel k) 0
    IImage.store mRadius dest.stride src dest

/-- The memory accesses of `CpuConvolutionFilter::convolve(dest, src)`. -/
def CpuConvolutionFilter.accesses (mRadius destStride : Nat) (src : IImage) :
    List Access :=
  CpuConvolutionFilter.run
    (fun l p k => l ++ [Access.srcRead p, Access.kernelRead k]) []
    (fun t off l => t ++ l ++ [Access.destWrite off]) mRadius destStride src []

/-! ## Ranges and shapes -/

/-- Radius and image dimensions for which the `unsigned int` index arithmetic of the
loops does not wrap: `R + max(rows, columns) < 2^32` and `2R+1 < 2^32`. -/
def Fits (mRadius : Nat) (src : IImage) : Prop :=
  mRadius + max src.rows src.columns < 4294967296 ∧ 2 * mRadius + 1 < 4294967296

/-- The length `(2R+1)^2` of a 2D kernel is an `unsigned int`, as `generateKernel`
reports it (`unsigned int& length`), so that `i * (2 * mRadius + 1) + j` does not wrap. -/
def KernelFits (mRadius : Nat) : Prop :=
  (2 * mRadius + 1) * (2 * mRadius + 1) ≤ 4294967296

/-- A destination of the source's dimensions whose stride satisfies the invariant
`stride >= columns * sizeof(float)`. -/
def IImage.SameShape (dest src : IImage) : Prop :=
  dest.rows = src.rows ∧ dest.columns = src.columns ∧ 4 * dest.columns ≤ dest.stride

instance (mRadius : Nat) (src : IImage) : Decidable (Fits mRadius src) := by
  unfold Fits; infer_instance

instance (mRadius : Nat) : Decidable (KernelFits mRadius) := by
  unfold KernelFits; infer_instance

instance (dest src : IImage) : Decidable (dest.SameShape src) := by
  unfold IImage.SameShape; infer_instance

/-- The byte offset `off` is that of a sample `(r, c)` inside the image. -/
def IImage.Holds (img : IImage) (off : Nat) : Prop :=
  ∃ r, r < img.rows ∧ ∃ c, c < img.columns ∧ off = r * img.stride + 4 * c

instance (img : IImage) (off : Nat) : Decidable (img.Holds off) := by
  unfold IImage.Holds; infer_instance

/-- An access stays in range: a source read and a destination write are at a sample
inside their image, whose four bytes lie within the `rows * stride` bytes of the
storage; a kernel index is below the kernel length `klen`. -/
def Access.InBounds (klen : Nat) (dest src : IImage) : Access → Prop
  | Access.srcRead off => src.Holds off ∧ off + 4 ≤ src.rows * src.stride
  | Access.kernelRead idx => idx < klen
  | Access.destWrite off => dest.Holds off ∧ off + 4 ≤ dest.rows * dest.stride

instance (klen : Nat) (dest src : IImage) (a : Access) :
    Decidable (a.InBounds klen dest src) := by
  cases a <;> unfold Access.InBounds <;> infer_instance

/-- The image of `rows x columns` samples, rows stored back to back, whose sample at
`(r, c)` is `f r c`. -/
def IImage.ofFn (rows columns : Nat) (f : Nat → Nat → ℚ) : IImage :=
  ⟨rows, columns, 4 * columns, fun off => f (off / (4 * columns)) (off % (4 * columns) / 4)⟩

/-! ## The boundary policies of the spec -/

/-- The boundary policy of the spec for the full 2D convolution, as a single loop
with a guarded accumulate: a tap whose sample lies outside the image is omitted. -/
def zeroOutside2D (mRadius : Nat) (mKernel : Nat → ℚ) (src : IImage) (row col : Nat) : ℚ :=
  ∑ dr ∈ Finset.range (2 * mRadius + 1), ∑ dc ∈ Finset.range (2 * mRadius + 1),
    if mRadius ≤ row + dr ∧ row + dr - mRadius < src.rows
        ∧ mRadius ≤ col + dc ∧ col + dc - mRadius < src.columns
    then src.sample (row + dr - mRadius) (col + dc - mRadius)
      * mKernel (dr * (2 * mRadius + 1) + dc)
    else 0

/-- The boundary policy of the spec for the row convolution: a tap whose sample lies
outside the row is omitted. -/
def zeroOutsideRow (mRadius : Nat) (mKernel : Nat → ℚ) (src : IImage) (row col : Nat) : ℚ :=
  ∑ k ∈ Finset.range (2 * mRadius + 1),
    if mRadius ≤ col + k ∧ col + k - mRadius < src.columns
    then src.sample row (col + k - mRadius) * mKernel k
    else 0

/-- The boundary policy of the spec for the column convolution: a tap whose sample
lies outside the column is omitted. -/
def zeroOutsideColumn (mRadius : Nat) (mKernel : Nat → ℚ) (src : IImage)
    (row col : Nat) : ℚ :=
  ∑ k ∈ Finset.range (2 * mRadius + 1),
    if mRadius ≤ row + k ∧ row + k - mRadius < src.rows
    then src.sample (row + k - mRadius) col * mKernel k
    else 0

/-- A single loop with a guarded accumulate in which a tap whose sample lies outside
the image reads the nearest edge sample instead of being omitted. -/
def nearestEdge2D (mRadius : Nat) (mKernel : Nat → ℚ) (src : IImage) (row col : Nat) : ℚ :=
  ∑ dr ∈ Finset.range (2 * mRadius + 1), ∑ dc ∈ Finset.range (2 * mRadius + 1),
    (if mRadius ≤ row + dr ∧ row + dr - mRadius < src.rows
        ∧ mRadius ≤ col + dc ∧ col + dc - mRadius < src.columns
     then src.sample (row + dr - mRadius) (col + dc - mRadius)
     else src.sample (min (row + dr - mRadius) (src.rows - 1))
       (min (col + dc - mRadius) (src.columns - 1)))
    * mKernel (dr * (2 * mRadius + 1) + dc)

/-- The row convolution with out-of-range taps reading the nearest sample of the row. -/
def nearestEdgeRow (mRadius : Nat) (mKernel : Nat → ℚ) (src : IImage) (row col : Nat) : ℚ :=
  ∑ k ∈ Finset.range (2 * mRadius + 1),
    (if mRadius ≤ col + k ∧ col + k - mRadius < src.columns
     then src.sample row (col + k - mRadius)
     else src.sample row (min (col + k - mRadius) (src.columns - 1)))
    * mKernel k

/-- The column convolution with out-of-range taps reading the nearest sample of the
column. -/
def nearestEdgeColumn (mRadius : Nat) (mKernel : Nat → ℚ) (src : IImage)
    (row col : Nat) : ℚ :=
  ∑ k ∈ Finset.range (2 * mRadius + 1),
    (if mRadius ≤ row + k ∧ row + k - mRadius < src.rows
     then src.sample (row + k - mRadius) col
     else src.sample (min (row + k - mRadius) (src.rows - 1)) col)
    * mKernel k

/-! ## Clipping bounds and clamped indices -/

/-- The bound `start` (`cstart`, `rstart`) of the loops for the pixel index `c` along
the filtered axis: `(c < mRadius ? mRadius - c : 0)` (lines 23-26, 95-96, 135-136). -/
def clipStart (mRadius c : Nat) : Nat :=
  if c < mRadius then u32sub mRadius c else 0

/-- The bound `end` (`cend`, `rend`) of the loops for the pixel index `c` along an axis
of `n` samples: `(n <= c + mRadius ? n - c + mRadius - 1 : 2 * mRadius)` (lines 28-35,
97-100, 137-140). -/
def clipEnd (mRadius n c : Nat) : Nat :=
  if n ≤ u32add c mRadius
  then u32sub (u32add (u32sub n c) mRadius) 1
  else u32mul 2 mRadius

/-- The index `c - mRadius + start` of the first sample read along the filtered axis
(lines 41-42, 107, 146). -/
def firstSample (mRadius c : Nat) : Nat :=
  u32add (u32sub c mRadius) (clipStart mRadius c)

/-- The index `min(max(x, 0), n - 1)`, over the integers, of the sample of an axis of
`n` samples nearest to the position `x`. -/
def clampIndex (n : Nat) (x : ℤ) : Nat :=
  (min (max x 0) ((n : ℤ) - 1)).toNat

/-- The kernel indices used by `CpuConvolutionFilter::convolve` for one pixel, in
program order. -/
def CpuConvolutionFilter.kernelIndices (mRadius : Nat) (src : IImage) (row col : Nat) :
    List Nat :=
  CpuConvolutionFilter.pixel (fun l _ k => l ++ [k]) [] mRadius src row col

/-! ## Binary32 rounding -/

/-- The integer nearest to `t`, a tie going to the even one (round half to even). -/
def halfEven (t : ℚ) : ℤ :=
  if t - ⌊t⌋ < 1 / 2 then ⌊t⌋
  else if 1 / 2 < t - ⌊t⌋ then ⌊t⌋ + 1
  else if ⌊t⌋ % 2 = 0 then ⌊t⌋ else ⌊t⌋ + 1

/-- The `float` (IEEE 754 binary32, round to nearest, ties to even) nearest to `q`: a
significand of 24 bits, the spacing never below `2^-149`.  Values of magnitude `2^128`
and above, which overflow in binary32, are outside this model. -/
def roundF32 (q : ℚ) : ℚ :=
  if q = 0 then 0
  else halfEven (q / (2 : ℚ) ^ (max (Int.log 2 |q| - 23) (-149)))
    * (2 : ℚ) ^ (max (Int.log 2 |q| - 23) (-149))

/-- The destination after `CpuRowConvolutionFilter::convolve(dest, src)` when each
operation of `x += *srcp * mKernel[k]` on `float` operands rounds its result by `rnd`:
first the product, then the sum.  With `rnd = id` this is `convolve`. -/
def CpuRowConvolutionFilter.convolveRounded (rnd : ℚ → ℚ) (mRadius : Nat)
    (mKernel : Nat → ℚ) (dest src : IImage) : IImage :=
  CpuRowConvolutionFilter.run (fun x p k => rnd (x + rnd (src.data p * mKernel k))) 0
    IImage.store mRadius dest.stride src dest

/-- The destination after `CpuColumnConvolutionFilter::convolve(dest, src)` when each
operation of `x += *(float*)srcp * mKernel[i]` rounds its result by `rnd`. -/
def CpuColumnConvolutionFilter.convolveRounded (rnd : ℚ → ℚ) (mRadius : Nat)
    (mKernel : Nat → ℚ) (dest src : IImage) : IImage :=
  CpuColumnConvolutionFilter.run (fun x p k => rnd (x + rnd (src.data p * mKernel k))) 0
    IImage.store mRadius dest.stride src dest

/-- The destination after `CpuConvolutionFilter::convolve(dest, src)` when each
operation of `x += *colp * mKernel[i * (2 * mRadius + 1) + j]` rounds its result by
`rnd`. -/
def CpuConvolutionFilter.convolveRounded (rnd : ℚ → ℚ) (mRadius : Nat)
    (mKernel : Nat → ℚ) (dest src : IImage) : IImage :=
  CpuConvolutionFilter.run (fun x p k => rnd (x + rnd (src.data p * mKernel k))) 0
    IImage.store mRadius dest.stride src dest

/-! ## Loop lemmas -/

theorem forLoop_lt {σ : Type} (hi : Nat) (body : Nat → σ → σ) :
    ∀ (fuel k : Nat) (s : σ), hi - k ≤ fuel →
      forLoop (fun k => decide (k < hi)) body fuel k s
        = (max k hi, (List.range' k (hi - k)).foldl (fun s k => body k s) s) := by
  intro fuel
  induction fuel with
  | zero =>
    intro k s h
    have hk : hi - k = 0 := by omega
    have hm : max k hi = k := by omega
    simp [forLoop, hk, hm]
  | succ n ih =>
    intro k s h
    by_cases hlt : k < hi
    · have hk : hi - k = (hi - (k + 1)) + 1 := by omega
      have hm : max k hi = max (k + 1) hi := by omega
      simp only [forLoop, hlt, decide_True, if_true]
      rw [ih (k + 1) (body k s) (by omega), hk, List.range'_succ, List.foldl_cons, hm]
    · have hk : hi - k = 0 := by omega
      have hm : max k hi = k := by omega
      simp [forLoop, hlt, hk, hm]

theorem forLoop_le {σ : Type} (hi : Nat) (body : Nat → σ → σ)
    (fuel k : Nat) (s : σ) (h : hi + 1 - k ≤ fuel) :
    forLoop (fun k => decide (k ≤ hi)) body fuel k s
      = (max k (hi + 1), (List.range' k (hi + 1 - k)).foldl (fun s k => body k s) s) := by
  have hc : (fun k => decide (k ≤ hi)) = (fun k => decide (k < hi + 1)) := by
    funext k
    simp [Nat.lt_succ_iff]
  rw [hc]
  exact forLoop_lt (hi + 1) body fuel k s h

theorem foldl_cursor {α : Type} (op : α → Nat → Nat → α) (d : Nat) :
    ∀ (n k0 p0 : Nat) (x0 : α),
      (List.range' k0 n).foldl (fun (s : Cursor α) k => ⟨s.p + d, op s.x s.p k⟩) ⟨p0, x0⟩
        = ⟨p0 + d * n,
            (List.range' k0 n).foldl (fun x k => op x (p0 + d * (k - k0)) k) x0⟩ := by
  intro n
  induction n with
  | zero => intro k0 p0 x0; simp
  | succ n ih =>
    intro k0 p0 x0
    rw [List.range'_succ, List.foldl_cons, List.foldl_cons, ih (k0 + 1) (p0 + d) _]
    have hp : p0 + d + d * n = p0 + d * (n + 1) := by ring
    have hx : (List.range' (k0 + 1) n).foldl
          (fun x k => op x (p0 + d + d * (k - (k0 + 1))) k) (op x0 p0 k0)
        = (List.range' (k0 + 1) n).foldl
          (fun x k => op x (p0 + d * (k - k0)) k) (op x0 (p0 + d * (k0 - k0)) k0) := by
      have h0 : p0 + d * (k0 - k0) = p0 := by simp
      rw [h0]
      apply List.foldl_ext
      intro a b hb
      have hb1 : k0 + 1 ≤ b := (List.mem_range'_1.mp hb).1
      have hk : b - k0 = (b - (k0 + 1)) + 1 := by omega
      rw [hk, Nat.mul_succ]
      congr 1
      omega
    rw [hp, hx]

theorem foldl_cursor_still {α : Type} (op : α → Nat → Nat → α) :
    ∀ (n k0 p0 : Nat) (x0 : α),
      (List.range' k0 n).foldl (fun (s : Cursor α) k => ⟨s.p, op s.x s.p k⟩) ⟨p0, x0⟩
        = ⟨p0, (List.range' k0 n).foldl (fun x k => op x p0 k) x0⟩ := by
  intro n
  induction n with
  | zero => intro k0 p0 x0; simp
  | succ n ih =>
    intro k0 p0 x0
    rw [List.range'_succ, List.foldl_cons, List.foldl_cons, ih (k0 + 1) p0 _]

/-- The three-segment loop: taps below `lo` read at the entry pointer, taps from `lo`
to `hi` advance the pointer by `d`, taps from `hi` on read at the last pointer. -/
theorem three_loops {α : Type} (op : α → Nat → Nat → α) (d lo hi top p0 : Nat) (x0 : α)
    (h1 : lo ≤ hi) (h2 : hi ≤ top) :
    (forLoop (fun k => decide (k ≤ top)) (fun k (s : Cursor α) => ⟨s.p, op s.x s.p k⟩)
        (top + 1)
        (forLoop (fun k => decide (k < hi)) (fun k (s : Cursor α) => ⟨s.p + d, op s.x s.p k⟩)
          hi
          (forLoop (fun k => decide (k < lo)) (fun k (s : Cursor α) => ⟨s.p, op s.x s.p k⟩)
            lo 0 ⟨p0, x0⟩).1
          (forLoop (fun k => decide (k < lo)) (fun k (s : Cursor α) => ⟨s.p, op s.x s.p k⟩)
            lo 0 ⟨p0, x0⟩).2).1
        (forLoop (fun k => decide (k < hi)) (fun k (s : Cursor α) => ⟨s.p + d, op s.x s.p k⟩)
          hi
          (forLoop (fun k => decide (k < lo)) (fun k (s : Cursor α) => ⟨s.p, op s.x s.p k⟩)
            lo 0 ⟨p0, x0⟩).1
          (forLoop (fun k => decide (k < lo)) (fun k (s : Cursor α) => ⟨s.p, op s.x s.p k⟩)
            lo 0 ⟨p0, x0⟩).2).2).2.x
      = (List.range (top + 1)).foldl
          (fun x k => op x (p0 + d * (min (max k lo) hi - lo)) k) x0 := by
  rw [forLoop_lt lo _ lo 0 _ (by omega)]
  simp only []
  rw [forLoop_lt hi _ hi _ _ (by omega)]
  simp only []
  rw [forLoop_le top _ (top + 1) _ _ (by omega)]
  simp only [Nat.sub_zero, Nat.zero_max]
  rw [foldl_cursor_still, foldl_cursor, foldl_cursor_still]
  simp only []
  have hm1 : max lo hi = hi := by omega
  have hr : List.range (top + 1)
      = List.range' 0 lo ++ (List.range' lo (hi - lo) ++ List.range' hi (top + 1 - hi)) := by
    have a1 : List.range' lo (hi - lo) ++ List.range' hi (top + 1 - hi)
        = List.range' lo (top + 1 - lo) := by
      have := List.range'_append_1 lo (hi - lo) (top + 1 - hi)
      rw [show lo + (hi - lo) = hi by omega] at this
      exact this.trans (by congr 1; omega)
    have a2 : List.range' 0 lo ++ List.range' lo (top + 1 - lo) = List.range' 0 (top + 1) := by
      have := List.range'_append_1 0 lo (top + 1 - lo)
      rw [show 0 + lo = lo by omega] at this
      exact this.trans (by congr 1; omega)
    rw [List.range_eq_range', a1, a2]
  rw [hm1, hr, List.foldl_append, List.foldl_append]
  have e1 : ∀ x, (List.range' 0 lo).foldl (fun x k => op x p0 k) x
      = (List.range' 0 lo).foldl (fun x k => op x (p0 + d * (min (max k lo) hi - lo)) k) x := by
    intro x
    apply List.foldl_ext
    intro a b hb
    have hb1 := (List.mem_range'_1.mp hb).2
    have : min (max b lo) hi - lo = 0 := by omega
    rw [this]; simp
  have e2 : ∀ x, (List.range' lo (hi - lo)).foldl (fun x k => op x (p0 + d * (k - lo)) k) x
      = (List.range' lo (hi - lo)).foldl
          (fun x k => op x (p0 + d * (min (max k lo) hi - lo)) k) x := by
    intro x
    apply List.foldl_ext
    intro a b hb
    have hb1 := List.mem_range'_1.mp hb
    have : min (max b lo) hi - lo = b - lo := by omega
    rw [this]
  have e3 : ∀ x, (List.range' hi (top + 1 - hi)).foldl
        (fun x k => op x (p0 + d * (hi - lo)) k) x
      = (List.range' hi (top + 1 - hi)).foldl
          (fun x k => op x (p0 + d * (min (max k lo) hi - lo)) k) x := by
    intro x
    apply List.foldl_ext
    intro a b hb
    have hb1 := List.mem_range'_1.mp hb
    have : min (max b lo) hi - lo = hi - lo := by omega
    rw [this]
  rw [e1, e2, e3]

/-! ## Index arithmetic -/

theorem start_eq (R c : Nat) (hc : c < 4294967296) (hR : R < 4294967296) :
    (if c < R then u32sub R c else 0) = R - c := by
  unfold u32sub
  split <;> omega

theorem end_eq (R c n : Nat) (hc : c < n) (hn : n < 4294967296)
    (hR : c + R < 4294967296) (h2 : 2 * R < 4294967296) :
    (if n ≤ u32add c R then u32sub (u32add (u32sub n c) R) 1 else u32mul 2 R)
      = min (n - 1 - c + R) (2 * R) := by
  unfold u32sub u32add u32mul
  split <;> omega

theorem first_eq (R c : Nat) (hc : c < 4294967296) (hR : R < 4294967296) :
    u32add (u32sub c R) (R - c) = c - R := by
  unfold u32sub u32add
  omega

theorem twice_eq (R : Nat) (h2 : 2 * R < 4294967296) : u32mul 2 R = 2 * R := by
  unfold u32mul
  omega

theorem clamp_eq (R c n k : Nat) (hc : c < n) (hk : k < 2 * R + 1) :
    (c - R) + (min (max k (R - c)) (min (n - 1 - c + R) (2 * R)) - (R - c))
      = min (c + k - R) (n - 1) := by
  omega

/-! ## What one pixel computes -/

theorem row_pixel_eq {α : Type} (acc : α → Nat → Nat → α) (x0 : α)
    (mRadius : Nat) (src : IImage) (row col : Nat) (hcol : col < src.columns)
    (hn : src.columns < 4294967296) (hR : col + mRadius < 4294967296)
    (h2 : 2 * mRadius < 4294967296) :
    CpuRowConvolutionFilter.pixel acc x0 mRadius src row col
      = (List.range (2 * mRadius + 1)).foldl
          (fun x k => acc x
            (row * src.stride + 4 * min (col + k - mRadius) (src.columns - 1)) k) x0 := by
  simp only [CpuRowConvolutionFilter.pixel]
  rw [start_eq mRadius col (by omega) (by omega), end_eq mRadius col src.columns hcol hn hR h2,
    first_eq mRadius col (by omega) (by omega), twice_eq mRadius h2]
  rw [three_loops acc 4 _ _ _ _ _ (by omega) (by omega)]
  apply List.foldl_ext
  intro a k hk
  have hk1 : k < 2 * mRadius + 1 := List.mem_range.mp hk
  congr 1
  have := clamp_eq mRadius col src.columns k hcol hk1
  omega

theorem column_pixel_eq {α : Type} (acc : α → Nat → Nat → α) (x0 : α)
    (mRadius : Nat) (src : IImage) (row col : Nat) (hrow : row < src.rows)
    (hn : src.rows < 4294967296) (hR : row + mRadius < 4294967296)
    (h2 : 2 * mRadius < 4294967296) :
    CpuColumnConvolutionFilter.pixel acc x0 mRadius src row col
      = (List.range (2 * mRadius + 1)).foldl
          (fun x k => acc x
            (min (row + k - mRadius) (src.rows - 1) * src.stride + 4 * col) k) x0 := by
  simp only [CpuColumnConvolutionFilter.pixel]
  rw [start_eq mRadius row (by omega) (by omega), end_eq mRadius row src.rows hrow hn hR h2,
    first_eq mRadius row (by omega) (by omega), twice_eq mRadius h2]
  rw [three_loops acc src.stride _ _ _ _ _ (by omega) (by omega)]
  apply List.foldl_ext
  intro a k hk
  have hk1 : k < 2 * mRadius + 1 := List.mem_range.mp hk
  congr 1
  rw [← clamp_eq mRadius row src.rows k hrow hk1]
  ring

theorem CpuConvolutionFilter.columnLoops_eq {α : Type} (acc : α → Nat → Nat → α)
    (mRadius cstart cend i rowp : Nat) (x : α) (h2 : 2 * mRadius < 4294967296)
    (h1 : cstart ≤ cend) (h3 : cend ≤ 2 * mRadius) :
    CpuConvolutionFilter.columnLoops acc mRadius cstart cend i rowp x
      = (List.range (2 * mRadius + 1)).foldl
          (fun x j => acc x (rowp + 4 * (min (max j cstart) cend - cstart))
            ((i * (2 * mRadius + 1) + j) % 4294967296)) x := by
  simp only [CpuConvolutionFilter.columnLoops]
  rw [twice_eq mRadius h2]
  rw [three_loops (fun x p j => acc x p (u32add (u32mul i (u32add (2 * mRadius) 1)) j))
    4 _ _ _ _ _ h1 h3]
  apply List.foldl_ext
  intro a j _
  congr 1
  unfold u32add u32mul
  simp [Nat.add_mod, Nat.mul_mod]

theorem full_pixel_eq {α : Type} (acc : α → Nat → Nat → α) (x0 : α)
    (mRadius : Nat) (src : IImage) (row col : Nat)
    (hrow : row < src.rows) (hcol : col < src.columns)
    (hnr : src.rows < 4294967296) (hnc : src.columns < 4294967296)
    (hRr : row + mRadius < 4294967296) (hRc : col + mRadius < 4294967296)
    (h2 : 2 * mRadius < 4294967296) :
    CpuConvolutionFilter.pixel acc x0 mRadius src row col
      = (List.range (2 * mRadius + 1)).foldl
          (fun x i => (List.range (2 * mRadius + 1)).foldl
            (fun x j => acc x
              (min (row + i - mRadius) (src.rows - 1) * src.stride
                + 4 * min (col + j - mRadius) (src.columns - 1))
              ((i * (2 * mRadius + 1) + j) % 4294967296)) x) x0 := by
  simp only [CpuConvolutionFilter.pixel]
  rw [start_eq mRadius col (by omega) (by omega),
    end_eq mRadius col src.columns hcol hnc hRc h2,
    first_eq mRadius col (by omega) (by omega),
    start_eq mRadius row (by omega) (by omega), end_eq mRadius row src.rows hrow hnr hRr h2,
    first_eq mRadius row (by omega) (by omega), twice_eq mRadius h2]
  rw [three_loops
    (fun x p i => CpuConvolutionFilter.columnLoops acc mRadius (mRadius - col)
      (min (src.columns - 1 - col + mRadius) (2 * mRadius)) i p x)
    src.stride _ _ _ _ _ (by omega) (by omega)]
  apply List.foldl_ext
  intro a i hi
  have hi1 : i < 2 * mRadius + 1 := List.mem_range.mp hi
  rw [CpuConvolutionFilter.columnLoops_eq acc mRadius _ _ i _ a h2 (by omega) (by omega)]
  apply List.foldl_ext
  intro b j hj
  have hj1 : j < 2 * mRadius + 1 := List.mem_range.mp hj
  congr 1
  rw [← clamp_eq mRadius row src.rows i hrow hi1, ← clamp_eq mRadius col src.columns j hcol hj1]
  ring

/-! ## The pixel loops and the stores -/

theorem forLoop_lt_zero {σ : Type} (hi : Nat) (body : Nat → σ → σ) (s : σ) :
    forLoop (fun k => decide (k < hi)) body hi 0 s
      = (hi, (List.range hi).foldl (fun s k => body k s) s) := by
  rw [forLoop_lt hi body hi 0 s (by omega), List.range_eq_range']
  simp

/-- The two outer loops of a convolution pass visit the pixels in row-major order. -/
theorem nest_eq {α τ : Type} (store : τ → Nat → α → τ) (ds rows cols : Nat)
    (px : Nat → Nat → α) (t0 : τ) :
    (forLoop (fun row => decide (row < rows))
      (fun row t =>
        (forLoop (fun col => decide (col < cols))
          (fun col t => store t (row * ds + 4 * col) (px row col)) cols 0 t).2)
      rows 0 t0).2
    = (List.range rows).foldl
        (fun t row => (List.range cols).foldl
          (fun t col => store t (row * ds + 4 * col) (px row col)) t) t0 := by
  simp only [forLoop_lt_zero]

theorem store_fold_row (b n : Nat) (f : Nat → ℚ) (t : IImage) :
    ((List.range n).foldl (fun t col => IImage.store t (b + 4 * col) (f col)) t).rows = t.rows
    ∧ ((List.range n).foldl (fun t col => IImage.store t (b + 4 * col) (f col)) t).columns
        = t.columns
    ∧ ((List.range n).foldl (fun t col => IImage.store t (b + 4 * col) (f col)) t).stride
        = t.stride
    ∧ (∀ col, col < n →
        ((List.range n).foldl (fun t col => IImage.store t (b + 4 * col) (f col)) t).data
          (b + 4 * col) = f col)
    ∧ (∀ off, (∀ col, col < n → off ≠ b + 4 * col) →
        ((List.range n).foldl (fun t col => IImage.store t (b + 4 * col) (f col)) t).data off
          = t.data off) := by
  induction n with
  | zero => simp
  | succ n ih =>
    obtain ⟨h1, h2, h3, h4, h5⟩ := ih
    rw [List.range_succ, List.foldl_append]
    simp only [List.foldl_cons, List.foldl_nil, IImage.store]
    refine ⟨h1, h2, h3, ?_, ?_⟩
    · intro col hcol
      by_cases hc : col = n
      · subst hc; simp
      · rw [Function.update_noteq (by omega)]
        exact h4 col (by omega)
    · intro off hoff
      rw [Function.update_noteq (hoff n (by omega))]
      exact h5 off (fun col hcol => hoff col (by omega))

theorem store_fold (ds rows cols : Nat) (px : Nat → Nat → ℚ) (t : IImage)
    (hds : 4 * cols ≤ ds) :
    ((List.range rows).foldl (fun t row => (List.range cols).foldl
        (fun t col => IImage.store t (row * ds + 4 * col) (px row col)) t) t).rows = t.rows
    ∧ ((List.range rows).foldl (fun t row => (List.range cols).foldl
        (fun t col => IImage.store t (row * ds + 4 * col) (px row col)) t) t).columns
        = t.columns
    ∧ ((List.range rows).foldl (fun t row => (List.range cols).foldl
        (fun t col => IImage.store t (row * ds + 4 * col) (px row col)) t) t).stride
        = t.stride
    ∧ (∀ row col, row < rows → col < cols →
        ((List.range rows).foldl (fun t row => (List.range cols).foldl
          (fun t col => IImage.store t (row * ds + 4 * col) (px row col)) t) t).data
          (row * ds + 4 * col) = px row col)
    ∧ (∀ off, (∀ row col, row < rows → col < cols → off ≠ row * ds + 4 * col) →
        ((List.range rows).foldl (fun t row => (List.range cols).foldl
          (fun t col => IImage.store t (row * ds + 4 * col) (px row col)) t) t).data off
          = t.data off) := by
  induction rows with
  | zero => simp
  | succ n ih =>
    obtain ⟨h1, h2, h3, h4, h5⟩ := ih
    rw [List.range_succ, List.foldl_append]
    simp only [List.foldl_cons, List.foldl_nil]
    obtain ⟨g1, g2, g3, g4, g5⟩ := store_fold_row (n * ds) cols (px n)
      ((List.range n).foldl (fun t row => (List.range cols).foldl
        (fun t col => IImage.store t (row * ds + 4 * col) (px row col)) t) t)
    refine ⟨g1.trans h1, g2.trans h2, g3.trans h3, ?_, ?_⟩
    · intro row col hrow hcol
      by_cases hr : row = n
      · subst hr; exact g4 col hcol
      · rw [g5]
        · exact h4 row col (by omega) hcol
        · intro c hc
          have hle : (row + 1) * ds ≤ n * ds := Nat.mul_le_mul_right ds (by omega)
          have : (row + 1) * ds = row * ds + ds := by ring
          omega
    · intro off hoff
      rw [g5 off (fun c hc => hoff n c (by omega) hc)]
      exact h5 off (fun r c hr hc => hoff r c (by omega) hc)

/-! ## What a pass stores -/

theorem row_convolve_spec (mRadius : Nat) (mKernel : Nat → ℚ)
    (dest src : IImage) (hds : 4 * src.columns ≤ dest.stride) :
    (CpuRowConvolutionFilter.convolve mRadius mKernel dest src).rows = dest.rows
    ∧ (CpuRowConvolutionFilter.convolve mRadius mKernel dest src).columns = dest.columns
    ∧ (CpuRowConvolutionFilter.convolve mRadius mKernel dest src).stride = dest.stride
    ∧ (∀ row col, row < src.rows → col < src.columns →
        (CpuRowConvolutionFilter.convolve mRadius mKernel dest src).data
            (row * dest.stride + 4 * col)
          = CpuRowConvolutionFilter.pixel (fun x p k => x + src.data p * mKernel k) 0
              mRadius src row col)
    ∧ (∀ off, (∀ row col, row < src.rows → col < src.columns →
          off ≠ row * dest.stride + 4 * col) →
        (CpuRowConvolutionFilter.convolve mRadius mKernel dest src).data off
          = dest.data off) := by
  unfold CpuRowConvolutionFilter.convolve CpuRowConvolutionFilter.run
  rw [nest_eq]
  exact store_fold dest.stride src.rows src.columns _ dest hds

theorem column_convolve_spec (mRadius : Nat) (mKernel : Nat → ℚ)
    (dest src : IImage) (hds : 4 * src.columns ≤ dest.stride) :
    (CpuColumnConvolutionFilter.convolve mRadius mKernel dest src).rows = dest.rows
    ∧ (CpuColumnConvolutionFilter.convolve mRadius mKernel dest src).columns = dest.columns
    ∧ (CpuColumnConvolutionFilter.convolve mRadius mKernel dest src).stride = dest.stride
    ∧ (∀ row col, row < src.rows → col < src.columns →
        (CpuColumnConvolutionFilter.convolve mRadius mKernel dest src).data
            (row * dest.stride + 4 * col)
          = CpuColumnConvolutionFilter.pixel (fun x p k => x + src.data p * mKernel k) 0
              mRadius src row col)
    ∧ (∀ off, (∀ row col, row < src.rows → col < src.columns →
          off ≠ row * dest.stride + 4 * col) →
        (CpuColumnConvolutionFilter.convolve mRadius mKernel dest src).data off
          = dest.data off) := by
  unfold CpuColumnConvolutionFilter.convolve CpuColumnConvolutionFilter.run
  rw [nest_eq]
  exact store_fold dest.stride src.rows src.columns _ dest hds

theorem full_convolve_spec (mRadius : Nat) (mKernel : Nat → ℚ)
    (dest src : IImage) (hds : 4 * src.columns ≤ dest.stride) :
    (CpuConvolutionFilter.convolve mRadius mKernel dest src).rows = dest.rows
    ∧ (CpuConvolutionFilter.convolve mRadius mKernel dest src).columns = dest.columns
    ∧ (CpuConvolutionFilter.convolve mRadius mKernel dest src).stride = dest.stride
    ∧ (∀ row col, row < src.rows → col < src.columns →
        (CpuConvolutionFilter.convolve mRadius mKernel dest src).data
            (row * dest.stride + 4 * col)
          = CpuConvolutionFilter.pixel (fun x p k => x + src.data p * mKernel k) 0
              mRadius src row col)
    ∧ (∀ off, (∀ row col, row < src.rows → col < src.columns →
          off ≠ row * dest.stride + 4 * col) →
        (CpuConvolutionFilter.convolve mRadius mKernel dest src).data off
          = dest.data off) := by
  unfold CpuConvolutionFilter.convolve CpuConvolutionFilter.run
  rw [nest_eq]
  exact store_fold dest.stride src.rows src.columns _ dest hds

/-! ## Sums -/

theorem foldl_add_sum (f : Nat → ℚ) (n : Nat) (x0 : ℚ) :
    (List.range n).foldl (fun x k => x + f k) x0 = x0 + ∑ k ∈ Finset.range n, f k := by
  induction n with
  | zero => simp
  | succ n ih =>
    rw [List.range_succ, List.foldl_append, ih, Finset.sum_range_succ]
    simp only [List.foldl_cons, List.foldl_nil]
    ring

theorem foldl_add_sum2 (g : Nat → Nat → ℚ) (m n : Nat) (x0 : ℚ) :
    (List.range m).foldl (fun x i => (List.range n).foldl (fun x j => x + g i j) x) x0
      = x0 + ∑ i ∈ Finset.range m, ∑ j ∈ Finset.range n, g i j := by
  simp only [foldl_add_sum]

theorem row_value (mRadius : Nat) (mKernel : Nat → ℚ)
    (src : IImage) (row col : Nat) (hcol : col < src.columns)
    (hn : src.columns < 4294967296) (hR : col + mRadius < 4294967296)
    (h2 : 2 * mRadius < 4294967296) :
    CpuRowConvolutionFilter.pixel (fun x p k => x + src.data p * mKernel k) 0
        mRadius src row col
      = ∑ k ∈ Finset.range (2 * mRadius + 1),
          src.sample row (min (col + k - mRadius) (src.columns - 1)) * mKernel k := by
  rw [row_pixel_eq _ _ _ _ _ _ hcol hn hR h2, foldl_add_sum, zero_add]
  rfl

theorem column_value (mRadius : Nat) (mKernel : Nat → ℚ)
    (src : IImage) (row col : Nat) (hrow : row < src.rows)
    (hn : src.rows < 4294967296) (hR : row + mRadius < 4294967296)
    (h2 : 2 * mRadius < 4294967296) :
    CpuColumnConvolutionFilter.pixel (fun x p k => x + src.data p * mKernel k) 0
        mRadius src row col
      = ∑ k ∈ Finset.range (2 * mRadius + 1),
          src.sample (min (row + k - mRadius) (src.rows - 1)) col * mKernel k := by
  rw [column_pixel_eq _ _ _ _ _ _ hrow hn hR h2, foldl_add_sum, zero_add]
  rfl

theorem full_value (mRadius : Nat) (mKernel : Nat → ℚ)
    (src : IImage) (row col : Nat) (hrow : row < src.rows) (hcol : col < src.columns)
    (hnr : src.rows < 4294967296) (hnc : src.columns < 4294967296)
    (hRr : row + mRadius < 4294967296) (hRc : col + mRadius < 4294967296)
    (h2 : 2 * mRadius < 4294967296) :
    CpuConvolutionFilter.pixel (fun x p k => x + src.data p * mKernel k) 0
        mRadius src row col
      = ∑ i ∈ Finset.range (2 * mRadius + 1), ∑ j ∈ Finset.range (2 * mRadius + 1),
          src.sample (min (row + i - mRadius) (src.rows - 1))
              (min (col + j - mRadius) (src.columns - 1))
            * mKernel ((i * (2 * mRadius + 1) + j) % 4294967296) := by
  rw [full_pixel_eq _ _ _ _ _ _ hrow hcol hnr hnc hRr hRc h2,
    foldl_add_sum2, zero_add]
  rfl

theorem kernel_index_fits (mRadius i j : Nat)
    (hK : (2 * mRadius + 1) * (2 * mRadius + 1) ≤ 4294967296)
    (hi : i < 2 * mRadius + 1) (hj : j < 2 * mRadius + 1) :
    (i * (2 * mRadius + 1) + j) % 4294967296 = i * (2 * mRadius + 1) + j := by
  apply Nat.mod_eq_of_lt
  have h1 : i * (2 * mRadius + 1) ≤ (2 * mRadius) * (2 * mRadius + 1) :=
    Nat.mul_le_mul_right _ (by omega)
  have h2 : (2 * mRadius + 1) * (2 * mRadius + 1)
      = (2 * mRadius) * (2 * mRadius + 1) + (2 * mRadius + 1) := by ring
  omega

/-! ## Samples of the destination -/

theorem row_sample_convolve (mRadius : Nat) (mKernel : Nat → ℚ)
    (dest src : IImage) (row col : Nat) (hs : dest.SameShape src)
    (hrow : row < src.rows) (hcol : col < src.columns) :
    (CpuRowConvolutionFilter.convolve mRadius mKernel dest src).sample row col
      = CpuRowConvolutionFilter.pixel (fun x p k => x + src.data p * mKernel k) 0
          mRadius src row col := by
  obtain ⟨_, h2, h3⟩ := hs
  obtain ⟨_, _, g3, g4, _⟩ :=
    row_convolve_spec mRadius mKernel dest src (by omega)
  unfold IImage.sample
  rw [g3]
  exact g4 row col hrow hcol

theorem column_sample_convolve (mRadius : Nat) (mKernel : Nat → ℚ)
    (dest src : IImage) (row col : Nat) (hs : dest.SameShape src)
    (hrow : row < src.rows) (hcol : col < src.columns) :
    (CpuColumnConvolutionFilter.convolve mRadius mKernel dest src).sample row col
      = CpuColumnConvolutionFilter.pixel (fun x p k => x + src.data p * mKernel k) 0
          mRadius src row col := by
  obtain ⟨_, h2, h3⟩ := hs
  obtain ⟨_, _, g3, g4, _⟩ :=
    column_convolve_spec mRadius mKernel dest src (by omega)
  unfold IImage.sample
  rw [g3]
  exact g4 row col hrow hcol

theorem full_sample_convolve (mRadius : Nat) (mKernel : Nat → ℚ)
    (dest src : IImage) (row col : Nat) (hs : dest.SameShape src)
    (hrow : row < src.rows) (hcol : col < src.columns) :
    (CpuConvolutionFilter.convolve mRadius mKernel dest src).sample row col
      = CpuConvolutionFilter.pixel (fun x p k => x + src.data p * mKernel k) 0
          mRadius src row col := by
  obtain ⟨_, h2, h3⟩ := hs
  obtain ⟨_, _, g3, g4, _⟩ :=
    full_convolve_spec mRadius mKernel dest src (by omega)
  unfold IImage.sample
  rw [g3]
  exact g4 row col hrow hcol

/-- Every tap of the row pass is accumulated, its column index clamped into the row. -/
theorem row_clamped (mRadius : Nat) (mKernel : Nat → ℚ)
    (dest src : IImage) (row col : Nat) (hs : dest.SameShape src) (hf : Fits mRadius src)
    (hrow : row < src.rows) (hcol : col < src.columns) :
    (CpuRowConvolutionFilter.convolve mRadius mKernel dest src).sample row col
      = ∑ k ∈ Finset.range (2 * mRadius + 1),
          src.sample row (min (col + k - mRadius) (src.columns - 1)) * mKernel k := by
  obtain ⟨hf1, hf2⟩ := hf
  rw [row_sample_convolve _ _ _ _ _ _ hs hrow hcol]
  exact row_value _ _ _ _ _ hcol (by omega) (by omega) (by omega)

/-- Every tap of the column pass is accumulated, its row index clamped into the column. -/
theorem column_clamped (mRadius : Nat) (mKernel : Nat → ℚ)
    (dest src : IImage) (row col : Nat) (hs : dest.SameShape src) (hf : Fits mRadius src)
    (hrow : row < src.rows) (hcol : col < src.columns) :
    (CpuColumnConvolutionFilter.convolve mRadius mKernel dest src).sample row col
      = ∑ k ∈ Finset.range (2 * mRadius + 1),
          src.sample (min (row + k - mRadius) (src.rows - 1)) col * mKernel k := by
  obtain ⟨hf1, hf2⟩ := hf
  rw [column_sample_convolve _ _ _ _ _ _ hs hrow hcol]
  exact column_value _ _ _ _ _ hrow (by omega) (by omega) (by omega)

/-- Every tap of the full 2D pass is accumulated, both indices clamped into the image. -/
theorem full_clamped (mRadius : Nat) (mKernel : Nat → ℚ)
    (dest src : IImage) (row col : Nat) (hs : dest.SameShape src)
    (hnr : src.rows < 4294967296) (hnc : src.columns < 4294967296)
    (hRr : row + mRadius < 4294967296) (hRc : col + mRadius < 4294967296)
    (hk : KernelFits mRadius)
    (hrow : row < src.rows) (hcol : col < src.columns) :
    (CpuConvolutionFilter.convolve mRadius mKernel dest src).sample row col
      = ∑ i ∈ Finset.range (2 * mRadius + 1), ∑ j ∈ Finset.range (2 * mRadius + 1),
          src.sample (min (row + i - mRadius) (src.rows - 1))
              (min (col + j - mRadius) (src.columns - 1))
            * mKernel (i * (2 * mRadius + 1) + j) := by
  have h2 : 2 * mRadius < 4294967296 := by
    unfold KernelFits at hk
    nlinarith
  rw [full_sample_convolve _ _ _ _ _ _ hs hrow hcol,
    full_value _ _ _ _ _ hrow hcol hnr hnc hRr hRc h2]
  apply Finset.sum_congr rfl
  intro i hi
  apply Finset.sum_congr rfl
  intro j hj
  rw [kernel_index_fits mRadius i j hk (Finset.mem_range.mp hi) (Finset.mem_range.mp hj)]

/-! ## Boundary policy -/

/-- C1 (amended): for an image and a radius in the `unsigned int` range, a kernel of
`(2R+1)^2` weights and every pixel `(row, col)`, `CpuConvolutionFilter::convolve` writes
the sum over all taps `(dr, dc)` of `kernel[dr*(2R+1)+dc]` times the sample at
`(row+dr-R, col+dc-R)` when that sample is inside the image and times the nearest edge
sample otherwise: the three-band loop equals a single loop with a guarded accumulate
whose else-branch accumulates the nearest edge sample; no tap is omitted. -/
theorem CpuConvolutionFilter.convolve_nearest_edge (mRadius : Nat) (mKernel : Nat → ℚ)
    (dest src : IImage) (row col : Nat) (hs : dest.SameShape src) (hf : Fits mRadius src)
    (hk : KernelFits mRadius) (hrow : row < src.rows) (hcol : col < src.columns) :
    (CpuConvolutionFilter.convolve mRadius mKernel dest src).sample row col
      = nearestEdge2D mRadius mKernel src row col := by
  obtain ⟨hf1, hf2⟩ := hf
  rw [full_clamped mRadius mKernel dest src row col hs (by omega) (by omega)
    (by omega) (by omega) hk hrow hcol]
  unfold nearestEdge2D
  apply Finset.sum_congr rfl
  intro i _
  apply Finset.sum_congr rfl
  intro j _
  split_ifs with h
  · rw [Nat.min_eq_left (by omega), Nat.min_eq_left (by omega)]
  · rfl

/-- Witness of C1 (amended): the 2x2 image `[[1,2],[3,4]]`, radius 1, at pixel `(0,0)`. -/
theorem CpuConvolutionFilter.convolve_nearest_edge_witness :
    (CpuConvolutionFilter.convolve 1 (fun _ => 1) (IImage.ofFn 2 2 fun _ _ => 0)
        (IImage.ofFn 2 2 fun r c => 2 * r + c + 1)).sample 0 0
      = nearestEdge2D 1 (fun _ => 1) (IImage.ofFn 2 2 fun r c => 2 * r + c + 1) 0 0 :=
  CpuConvolutionFilter.convolve_nearest_edge 1 (fun _ => 1) (IImage.ofFn 2 2 fun _ _ => 0)
    (IImage.ofFn 2 2 fun r c => 2 * r + c + 1) 0 0
    (by simp [IImage.SameShape, IImage.ofFn]) (by simp [Fits, IImage.ofFn])
    (by simp [KernelFits]) (by simp [IImage.ofFn]) (by simp [IImage.ofFn])

/-- C1, counterexample: on the 2x2 image `[[1,2],[3,4]]`, with radius 1 and nine unit
weights, the pixel `(0,0)` receives 18 (the out-of-range taps read the edge samples),
whereas the sum over the in-bounds taps alone is 10. -/
theorem CpuConvolutionFilter.convolve_not_zero_outside :
    (CpuConvolutionFilter.convolve 1 (fun _ => 1) (IImage.ofFn 2 2 fun _ _ => 0)
        (IImage.ofFn 2 2 fun r c => 2 * r + c + 1)).sample 0 0 = 18
    ∧ zeroOutside2D 1 (fun _ => 1) (IImage.ofFn 2 2 fun r c => 2 * r + c + 1) 0 0 = 10
    ∧ (CpuConvolutionFilter.convolve 1 (fun _ => 1) (IImage.ofFn 2 2 fun _ _ => 0)
        (IImage.ofFn 2 2 fun r c => 2 * r + c + 1)).sample 0 0
      ≠ zeroOutside2D 1 (fun _ => 1) (IImage.ofFn 2 2 fun r c => 2 * r + c + 1) 0 0 := by
  have h1 : (CpuConvolutionFilter.convolve 1 (fun _ => 1) (IImage.ofFn 2 2 fun _ _ => 0)
        (IImage.ofFn 2 2 fun r c => 2 * r + c + 1)).sample 0 0 = 18 := by
    rw [full_clamped 1 (fun _ => 1) (IImage.ofFn 2 2 fun _ _ => 0)
      (IImage.ofFn 2 2 fun r c => 2 * r + c + 1) 0 0
      (by simp [IImage.SameShape, IImage.ofFn]) (by simp [IImage.ofFn])
      (by simp [IImage.ofFn]) (by norm_num) (by norm_num)
      (by simp [KernelFits]) (by simp [IImage.ofFn]) (by simp [IImage.ofFn])]
    simp [Finset.sum_range_succ, IImage.sample, IImage.ofFn]
    norm_num
  have h2 : zeroOutside2D 1 (fun _ => 1)
      (IImage.ofFn 2 2 fun r c => 2 * r + c + 1) 0 0 = 10 := by
    simp [zeroOutside2D, Finset.sum_range_succ, IImage.sample, IImage.ofFn]
    norm_num
  refine ⟨h1, h2, ?_⟩
  rw [h1, h2]
  norm_num

/-- C2 (amended): for an image and a radius in the `unsigned int` range, a kernel of
`2R+1` weights and every pixel `(row, col)`, `CpuRowConvolutionFilter::convolve` writes
the sum over all `k` in `[0,2R]` of `kernel[k]` times `src[row][col+k-R]` when
`0 <= col+k-R < columns` and times the nearest sample of the row otherwise, and
`CpuColumnConvolutionFilter::convolve` writes the sum over all `k` of `kernel[k]` times
`src[row+k-R][col]` when `0 <= row+k-R < rows` and times the nearest sample of the column
otherwise; taps falling outside the image along the filtered axis are clamped to the
edge, not omitted. -/
theorem separable_passes_nearest_edge (mRadius : Nat) (mKernel : Nat → ℚ)
    (dest src : IImage) (row col : Nat) (hs : dest.SameShape src) (hf : Fits mRadius src)
    (hrow : row < src.rows) (hcol : col < src.columns) :
    (CpuRowConvolutionFilter.convolve mRadius mKernel dest src).sample row col
        = nearestEdgeRow mRadius mKernel src row col
    ∧ (CpuColumnConvolutionFilter.convolve mRadius mKernel dest src).sample row col
        = nearestEdgeColumn mRadius mKernel src row col := by
  constructor
  · rw [row_clamped mRadius mKernel dest src row col hs hf hrow hcol]
    unfold nearestEdgeRow
    apply Finset.sum_congr rfl
    intro k _
    split_ifs with h
    · rw [Nat.min_eq_left (by omega)]
    · rfl
  · rw [column_clamped mRadius mKernel dest src row col hs hf hrow hcol]
    unfold nearestEdgeColumn
    apply Finset.sum_congr rfl
    intro k _
    split_ifs with h
    · rw [Nat.min_eq_left (by omega)]
    · rfl

/-- Witness of C2 (amended): the 2x2 image `[[1,2],[3,4]]`, radius 1, at pixel `(0,0)`. -/
theorem separable_passes_nearest_edge_witness :
    (CpuRowConvolutionFilter.convolve 1 (fun _ => 1) (IImage.ofFn 2 2 fun _ _ => 0)
        (IImage.ofFn 2 2 fun r c => 2 * r + c + 1)).sample 0 0
        = nearestEdgeRow 1 (fun _ => 1) (IImage.ofFn 2 2 fun r c => 2 * r + c + 1) 0 0
    ∧ (CpuColumnConvolutionFilter.convolve 1 (fun _ => 1) (IImage.ofFn 2 2 fun _ _ => 0)
        (IImage.ofFn 2 2 fun r c => 2 * r + c + 1)).sample 0 0
        = nearestEdgeColumn 1 (fun _ => 1) (IImage.ofFn 2 2 fun r c => 2 * r + c + 1) 0 0 :=
  separable_passes_nearest_edge 1 (fun _ => 1) (IImage.ofFn 2 2 fun _ _ => 0)
    (IImage.ofFn 2 2 fun r c => 2 * r + c + 1) 0 0
    (by simp [IImage.SameShape, IImage.ofFn]) (by simp [Fits, IImage.ofFn])
    (by simp [IImage.ofFn]) (by simp [IImage.ofFn])

/-- C2, counterexample: on the 2x2 image `[[1,2],[3,4]]`, with radius 1 and three unit
weights, the row pass writes 4 at `(0,0)` where omitting the out-of-range tap gives 3,
and the column pass writes 5 where omitting it gives 4. -/
theorem separable_passes_not_zero_outside :
    (CpuRowConvolutionFilter.convolve 1 (fun _ => 1) (IImage.ofFn 2 2 fun _ _ => 0)
        (IImage.ofFn 2 2 fun r c => 2 * r + c + 1)).sample 0 0 = 4
    ∧ zeroOutsideRow 1 (fun _ => 1) (IImage.ofFn 2 2 fun r c => 2 * r + c + 1) 0 0 = 3
    ∧ (CpuColumnConvolutionFilter.convolve 1 (fun _ => 1) (IImage.ofFn 2 2 fun _ _ => 0)
        (IImage.ofFn 2 2 fun r c => 2 * r + c + 1)).sample 0 0 = 5
    ∧ zeroOutsideColumn 1 (fun _ => 1) (IImage.ofFn 2 2 fun r c => 2 * r + c + 1) 0 0 = 4
    ∧ ¬ ((CpuRowConvolutionFilter.convolve 1 (fun _ => 1) (IImage.ofFn 2 2 fun _ _ => 0)
          (IImage.ofFn 2 2 fun r c => 2 * r + c + 1)).sample 0 0
          = zeroOutsideRow 1 (fun _ => 1) (IImage.ofFn 2 2 fun r c => 2 * r + c + 1) 0 0
        ∧ (CpuColumnConvolutionFilter.convolve 1 (fun _ => 1) (IImage.ofFn 2 2 fun _ _ => 0)
          (IImage.ofFn 2 2 fun r c => 2 * r + c + 1)).sample 0 0
          = zeroOutsideColumn 1 (fun _ => 1)
              (IImage.ofFn 2 2 fun r c => 2 * r + c + 1) 0 0) := by
  have hs : (IImage.ofFn 2 2 fun _ _ => 0).SameShape
      (IImage.ofFn 2 2 fun r c => 2 * r + c + 1) := by
    simp [IImage.SameShape, IImage.ofFn]
  have hf : Fits 1 (IImage.ofFn 2 2 fun r c => 2 * r + c + 1) := by
    simp [Fits, IImage.ofFn]
  have h1 : (CpuRowConvolutionFilter.convolve 1 (fun _ => 1) (IImage.ofFn 2 2 fun _ _ => 0)
        (IImage.ofFn 2 2 fun r c => 2 * r + c + 1)).sample 0 0 = 4 := by
    rw [row_clamped 1 (fun _ => 1) _ _ 0 0 hs hf
      (by simp [IImage.ofFn]) (by simp [IImage.ofFn])]
    simp [Finset.sum_range_succ, IImage.sample, IImage.ofFn]
    norm_num
  have h2 : zeroOutsideRow 1 (fun _ => 1)
      (IImage.ofFn 2 2 fun r c => 2 * r + c + 1) 0 0 = 3 := by
    simp [zeroOutsideRow, Finset.sum_range_succ, IImage.sample, IImage.ofFn]
    norm_num
  have h3 : (CpuColumnConvolutionFilter.convolve 1 (fun _ => 1)
        (IImage.ofFn 2 2 fun _ _ => 0)
        (IImage.ofFn 2 2 fun r c => 2 * r + c + 1)).sample 0 0 = 5 := by
    rw [column_clamped 1 (fun _ => 1) _ _ 0 0 hs hf
      (by simp [IImage.ofFn]) (by simp [IImage.ofFn])]
    simp [Finset.sum_range_succ, IImage.sample, IImage.ofFn]
    norm_num
  have h4 : zeroOutsideColumn 1 (fun _ => 1)
      (IImage.ofFn 2 2 fun r c => 2 * r + c + 1) 0 0 = 4 := by
    simp [zeroOutsideColumn, Finset.sum_range_succ, IImage.sample, IImage.ofFn]
    norm_num
  refine ⟨h1, h2, h3, h4, ?_⟩
  rw [h1, h2]
  norm_num

/-! ## Identity, interior pixels and the box filter -/

/-- C3: for every image, each of the three `convolve` operations, run with radius 0 and
the single-weight kernel `[1.0]`, produces a destination equal to the source at every
pixel: `dest[row][col] == src[row][col]` for `row < rows`, `col < columns`. -/
theorem radius_zero_identity (mKernel : Nat → ℚ) (dest src : IImage) (row col : Nat)
    (hK : mKernel 0 = 1) (hs : dest.SameShape src)
    (hnr : src.rows < 4294967296) (hnc : src.columns < 4294967296)
    (hrow : row < src.rows) (hcol : col < src.columns) :
    (CpuConvolutionFilter.convolve 0 mKernel dest src).sample row col = src.sample row col
    ∧ (CpuRowConvolutionFilter.convolve 0 mKernel dest src).sample row col
        = src.sample row col
    ∧ (CpuColumnConvolutionFilter.convolve 0 mKernel dest src).sample row col
        = src.sample row col := by
  have hf : Fits 0 src := by
    unfold Fits
    omega
  have hr : min row (src.rows - 1) = row := by omega
  have hc : min col (src.columns - 1) = col := by omega
  refine ⟨?_, ?_, ?_⟩
  · rw [full_clamped 0 mKernel dest src row col hs hnr hnc (by omega)
      (by omega) (by unfold KernelFits; omega) hrow hcol]
    simp [hK, hr, hc]
  · rw [row_clamped 0 mKernel dest src row col hs hf hrow hcol]
    simp [hK, hc]
  · rw [column_clamped 0 mKernel dest src row col hs hf hrow hcol]
    simp [hK, hr]

/-- Witness of C3: the 2x2 image `[[1,2],[3,4]]` at pixel `(1,0)`. -/
theorem radius_zero_identity_witness :
    (CpuConvolutionFilter.convolve 0 (fun _ => 1) (IImage.ofFn 2 2 fun _ _ => 0)
        (IImage.ofFn 2 2 fun r c => 2 * r + c + 1)).sample 1 0
        = (IImage.ofFn 2 2 fun r c => 2 * r + c + 1).sample 1 0
    ∧ (CpuRowConvolutionFilter.convolve 0 (fun _ => 1) (IImage.ofFn 2 2 fun _ _ => 0)
        (IImage.ofFn 2 2 fun r c => 2 * r + c + 1)).sample 1 0
        = (IImage.ofFn 2 2 fun r c => 2 * r + c + 1).sample 1 0
    ∧ (CpuColumnConvolutionFilter.convolve 0 (fun _ => 1) (IImage.ofFn 2 2 fun _ _ => 0)
        (IImage.ofFn 2 2 fun r c => 2 * r + c + 1)).sample 1 0
        = (IImage.ofFn 2 2 fun r c => 2 * r + c + 1).sample 1 0 :=
  radius_zero_identity (fun _ => 1) (IImage.ofFn 2 2 fun _ _ => 0)
    (IImage.ofFn 2 2 fun r c => 2 * r + c + 1) 1 0 rfl
    (by simp [IImage.SameShape, IImage.ofFn]) (by simp [IImage.ofFn])
    (by simp [IImage.ofFn]) (by simp [IImage.ofFn]) (by simp [IImage.ofFn])

/-- C6: for every image, radius `R` and kernel of `(2R+1)^2` weights, at every pixel whose
whole window is inside the image (`R <= row < rows-R`, `R <= col < columns-R`)
`CpuConvolutionFilter::convolve` writes the sum over all `dr, dc` in `[0,2R]` of
`src[row+dr-R][col+dc-R] * kernel[dr*(2R+1)+dc]`: the kernel is applied unflipped and
its centre weight multiplies the target pixel. -/
theorem CpuConvolutionFilter.convolve_interior (mRadius : Nat) (mKernel : Nat → ℚ)
    (dest src : IImage) (row col : Nat) (hs : dest.SameShape src)
    (hnr : src.rows < 4294967296) (hnc : src.columns < 4294967296)
    (hk : KernelFits mRadius)
    (hr1 : mRadius ≤ row) (hr2 : row + mRadius < src.rows)
    (hc1 : mRadius ≤ col) (hc2 : col + mRadius < src.columns) :
    (CpuConvolutionFilter.convolve mRadius mKernel dest src).sample row col
      = ∑ dr ∈ Finset.range (2 * mRadius + 1), ∑ dc ∈ Finset.range (2 * mRadius + 1),
          src.sample (row + dr - mRadius) (col + dc - mRadius)
            * mKernel (dr * (2 * mRadius + 1) + dc) := by
  rw [full_clamped mRadius mKernel dest src row col hs hnr hnc (by omega)
    (by omega) hk (by omega) (by omega)]
  apply Finset.sum_congr rfl
  intro i hi
  apply Finset.sum_congr rfl
  intro j hj
  have hi1 := Finset.mem_range.mp hi
  have hj1 := Finset.mem_range.mp hj
  have hr : row + i - mRadius = row - mRadius + i := by omega
  have hc : col + j - mRadius = col - mRadius + j := by omega
  rw [Nat.min_eq_left (by omega), Nat.min_eq_left (by omega)]

/-- Witness of C6: the centre pixel of a 3x3 image, radius 1. -/
theorem CpuConvolutionFilter.convolve_interior_witness :
    (CpuConvolutionFilter.convolve 1 (fun k => k) (IImage.ofFn 3 3 fun _ _ => 0)
        (IImage.ofFn 3 3 fun r c => 3 * r + c + 1)).sample 1 1
      = ∑ dr ∈ Finset.range (2 * 1 + 1), ∑ dc ∈ Finset.range (2 * 1 + 1),
          (IImage.ofFn 3 3 fun r c => 3 * r + c + 1).sample (1 + dr - 1) (1 + dc - 1)
            * (fun k : Nat => (k : ℚ)) (dr * (2 * 1 + 1) + dc) :=
  CpuConvolutionFilter.convolve_interior 1 (fun k => k) (IImage.ofFn 3 3 fun _ _ => 0)
    (IImage.ofFn 3 3 fun r c => 3 * r + c + 1) 1 1
    (by simp [IImage.SameShape, IImage.ofFn]) (by simp [IImage.ofFn])
    (by simp [IImage.ofFn]) (by simp [KernelFits]) (by norm_num)
    (by simp [IImage.ofFn]) (by norm_num) (by simp [IImage.ofFn])

/-- C5 (amended): for every 5x5 image `s`, `CpuConvolutionFilter::convolve` with radius 1
and the nine-weight kernel whose weights are all 1/9 writes at the corner pixel `(0,0)`
the value `(4*s[0][0] + 2*s[0][1] + 2*s[1][0] + s[1][1]) / 9`: all nine taps contribute,
the 5 out-of-range taps reading the clamped (nearest edge) sample. -/
theorem CpuConvolutionFilter.box_corner (mKernel : Nat → ℚ) (dest src : IImage)
    (hs : dest.SameShape src) (hr : src.rows = 5) (hc : src.columns = 5)
    (hK : ∀ k, k < 9 → mKernel k = 1 / 9) :
    (CpuConvolutionFilter.convolve 1 mKernel dest src).sample 0 0
      = (4 * src.sample 0 0 + 2 * src.sample 0 1 + 2 * src.sample 1 0 + src.sample 1 1)
          / 9 := by
  rw [full_clamped 1 mKernel dest src 0 0 hs (by omega) (by omega)
    (by omega) (by omega) (by unfold KernelFits; omega) (by omega) (by omega)]
  simp only [Finset.sum_range_succ, Finset.sum_range_zero, hr, hc]
  norm_num [hK]
  ring

/-- Witness of C5 (amended): the 5x5 image with samples `9 * (5r + c + 1)`. -/
theorem CpuConvolutionFilter.box_corner_witness :
    (CpuConvolutionFilter.convolve 1 (fun _ => 1 / 9) (IImage.ofFn 5 5 fun _ _ => 0)
        (IImage.ofFn 5 5 fun r c => 9 * (5 * r + c + 1))).sample 0 0
      = (4 * (IImage.ofFn 5 5 fun r c => 9 * (5 * r + c + 1)).sample 0 0
          + 2 * (IImage.ofFn 5 5 fun r c => 9 * (5 * r + c + 1)).sample 0 1
          + 2 * (IImage.ofFn 5 5 fun r c => 9 * (5 * r + c + 1)).sample 1 0
          + (IImage.ofFn 5 5 fun r c => 9 * (5 * r + c + 1)).sample 1 1) / 9 :=
  CpuConvolutionFilter.box_corner (fun _ => 1 / 9) (IImage.ofFn 5 5 fun _ _ => 0)
    (IImage.ofFn 5 5 fun r c => 9 * (5 * r + c + 1))
    (by simp [IImage.SameShape, IImage.ofFn]) rfl rfl (fun _ _ => rfl)

/-- C5, counterexample: on the 5x5 image with samples `9 * (5r + c + 1)` the box filter
of radius 1 writes 27 at the corner `(0,0)`, whereas the four in-bounds neighbours
divided by 9 give 16. -/
theorem CpuConvolutionFilter.box_corner_not_zero_outside :
    (CpuConvolutionFilter.convolve 1 (fun _ => 1 / 9) (IImage.ofFn 5 5 fun _ _ => 0)
        (IImage.ofFn 5 5 fun r c => 9 * (5 * r + c + 1))).sample 0 0 = 27
    ∧ ((IImage.ofFn 5 5 fun r c => 9 * (5 * r + c + 1)).sample 0 0
          + (IImage.ofFn 5 5 fun r c => 9 * (5 * r + c + 1)).sample 0 1
          + (IImage.ofFn 5 5 fun r c => 9 * (5 * r + c + 1)).sample 1 0
          + (IImage.ofFn 5 5 fun r c => 9 * (5 * r + c + 1)).sample 1 1) / 9 = 16
    ∧ (CpuConvolutionFilter.convolve 1 (fun _ => 1 / 9) (IImage.ofFn 5 5 fun _ _ => 0)
        (IImage.ofFn 5 5 fun r c => 9 * (5 * r + c + 1))).sample 0 0
      ≠ ((IImage.ofFn 5 5 fun r c => 9 * (5 * r + c + 1)).sample 0 0
          + (IImage.ofFn 5 5 fun r c => 9 * (5 * r + c + 1)).sample 0 1
          + (IImage.ofFn 5 5 fun r c => 9 * (5 * r + c + 1)).sample 1 0
          + (IImage.ofFn 5 5 fun r c => 9 * (5 * r + c + 1)).sample 1 1) / 9 := by
  have h1 : (CpuConvolutionFilter.convolve 1 (fun _ => 1 / 9)
        (IImage.ofFn 5 5 fun _ _ => 0)
        (IImage.ofFn 5 5 fun r c => 9 * (5 * r + c + 1))).sample 0 0 = 27 := by
    rw [full_clamped 1 (fun _ => 1 / 9) (IImage.ofFn 5 5 fun _ _ => 0)
      (IImage.ofFn 5 5 fun r c => 9 * (5 * r + c + 1)) 0 0
      (by simp [IImage.SameShape, IImage.ofFn]) (by simp [IImage.ofFn])
      (by simp [IImage.ofFn]) (by norm_num) (by norm_num)
      (by simp [KernelFits]) (by simp [IImage.ofFn]) (by simp [IImage.ofFn])]
    simp [Finset.sum_range_succ, IImage.sample, IImage.ofFn]
    norm_num
  have h2 : ((IImage.ofFn 5 5 fun r c => 9 * (5 * r + c + 1)).sample 0 0
          + (IImage.ofFn 5 5 fun r c => 9 * (5 * r + c + 1)).sample 0 1
          + (IImage.ofFn 5 5 fun r c => 9 * (5 * r + c + 1)).sample 1 0
          + (IImage.ofFn 5 5 fun r c => 9 * (5 * r + c + 1)).sample 1 1) / 9 = 16 := by
    simp [IImage.sample, IImage.ofFn]
    norm_num
  refine ⟨h1, h2, ?_⟩
  rw [h1, h2]
  norm_num

/-! ## Separable composition -/

theorem row_convolve_shape (mRadius : Nat) (mKernel : Nat → ℚ)
    (dest src : IImage) (hs : dest.SameShape src) :
    (CpuRowConvolutionFilter.convolve mRadius mKernel dest src).rows = src.rows
    ∧ (CpuRowConvolutionFilter.convolve mRadius mKernel dest src).columns = src.columns := by
  obtain ⟨h1, h2, h3⟩ := hs
  obtain ⟨g1, g2, _⟩ :=
    row_convolve_spec mRadius mKernel dest src (by omega)
  exact ⟨g1.trans h1, g2.trans h2⟩

theorem column_convolve_shape (mRadius : Nat) (mKernel : Nat → ℚ)
    (dest src : IImage) (hs : dest.SameShape src) :
    (CpuColumnConvolutionFilter.convolve mRadius mKernel dest src).rows = src.rows
    ∧ (CpuColumnConvolutionFilter.convolve mRadius mKernel dest src).columns
        = src.columns := by
  obtain ⟨h1, h2, h3⟩ := hs
  obtain ⟨g1, g2, _⟩ :=
    column_convolve_spec mRadius mKernel dest src (by omega)
  exact ⟨g1.trans h1, g2.trans h2⟩

/-- The row pass followed by the column pass, as a double sum over clamped samples. -/
theorem row_then_column (mRadius : Nat) (u v : Nat → ℚ) (tmp dest src : IImage)
    (row col : Nat) (ht : tmp.SameShape src) (hd : dest.SameShape src)
    (hf : Fits mRadius src) (hrow : row < src.rows) (hcol : col < src.columns) :
    (CpuColumnConvolutionFilter.convolve mRadius v dest
        (CpuRowConvolutionFilter.convolve mRadius u tmp src)).sample row col
      = ∑ i ∈ Finset.range (2 * mRadius + 1), ∑ j ∈ Finset.range (2 * mRadius + 1),
          src.sample (min (row + i - mRadius) (src.rows - 1))
              (min (col + j - mRadius) (src.columns - 1)) * (v i * u j) := by
  obtain ⟨e1, e2⟩ := row_convolve_shape mRadius u tmp src ht
  have hd2 : dest.SameShape (CpuRowConvolutionFilter.convolve mRadius u tmp src) := by
    unfold IImage.SameShape at hd ⊢
    rw [e1, e2]
    exact hd
  have hf2 : Fits mRadius (CpuRowConvolutionFilter.convolve mRadius u tmp src) := by
    unfold Fits at hf ⊢
    rw [e1, e2]
    exact hf
  rw [column_clamped mRadius v dest _ row col hd2 hf2
    (by rw [e1]; exact hrow) (by rw [e2]; exact hcol), e1]
  apply Finset.sum_congr rfl
  intro i _
  rw [row_clamped mRadius u tmp src _ col ht hf (by omega) hcol,
    Finset.sum_mul]
  apply Finset.sum_congr rfl
  intro j _
  ring

/-- C4: for every image, radius `R` and pair of 1D kernels `u`, `v` of length `2R+1`,
`CpuRowConvolutionFilter::convolve` with `u` followed by
`CpuColumnConvolutionFilter::convolve` with `v` on its output gives, at every pixel,
border pixels included, the same value as one `CpuConvolutionFilter::convolve` of the
original image with the 2D kernel `K[i*(2R+1)+j] = v[i] * u[j]`. -/
theorem separable_equivalence (mRadius : Nat) (u v K : Nat → ℚ)
    (tmp dest dest2D src : IImage) (row col : Nat)
    (ht : tmp.SameShape src) (hd : dest.SameShape src) (hd2 : dest2D.SameShape src)
    (hf : Fits mRadius src) (hk : KernelFits mRadius)
    (hK : ∀ i j, i < 2 * mRadius + 1 → j < 2 * mRadius + 1 →
      K (i * (2 * mRadius + 1) + j) = v i * u j)
    (hrow : row < src.rows) (hcol : col < src.columns) :
    (CpuColumnConvolutionFilter.convolve mRadius v dest
        (CpuRowConvolutionFilter.convolve mRadius u tmp src)).sample row col
      = (CpuConvolutionFilter.convolve mRadius K dest2D src).sample row col := by
  obtain ⟨hf1, hf2⟩ := id hf
  rw [row_then_column mRadius u v tmp dest src row col ht hd hf hrow hcol,
    full_clamped mRadius K dest2D src row col hd2 (by omega) (by omega)
      (by omega) (by omega) hk hrow hcol]
  apply Finset.sum_congr rfl
  intro i hi
  apply Finset.sum_congr rfl
  intro j hj
  rw [hK i j (Finset.mem_range.mp hi) (Finset.mem_range.mp hj)]

/-- Witness of C4: the 2x2 image `[[1,2],[3,4]]`, radius 1, `u = [1,2,3]`, `v = [1,1,1]`,
at the corner `(0,0)`. -/
theorem separable_equivalence_witness :
    (CpuColumnConvolutionFilter.convolve 1 (fun _ => 1) (IImage.ofFn 2 2 fun _ _ => 0)
        (CpuRowConvolutionFilter.convolve 1 (fun k => k + 1) (IImage.ofFn 2 2 fun _ _ => 0)
          (IImage.ofFn 2 2 fun r c => 2 * r + c + 1))).sample 0 0
      = (CpuConvolutionFilter.convolve 1 (fun k => (k % 3 : Nat) + 1)
          (IImage.ofFn 2 2 fun _ _ => 0)
          (IImage.ofFn 2 2 fun r c => 2 * r + c + 1)).sample 0 0 :=
  separable_equivalence 1 (fun k => k + 1) (fun _ => 1) (fun k => (k % 3 : Nat) + 1)
    (IImage.ofFn 2 2 fun _ _ => 0) (IImage.ofFn 2 2 fun _ _ => 0)
    (IImage.ofFn 2 2 fun _ _ => 0) (IImage.ofFn 2 2 fun r c => 2 * r + c + 1) 0 0
    (by simp [IImage.SameShape, IImage.ofFn]) (by simp [IImage.SameShape, IImage.ofFn])
    (by simp [IImage.SameShape, IImage.ofFn]) (by simp [Fits, IImage.ofFn])
    (by simp [KernelFits])
    (by
      intro i j hi hj
      have hj3 : j < 3 := by omega
      have hm : (i * (2 * 1 + 1) + j) % 3 = j := by omega
      simp [hm])
    (by simp [IImage.ofFn]) (by simp [IImage.ofFn])

/-! ## Uniform images -/

theorem sum_kernel_rows (K : Nat → ℚ) (n : Nat) :
    ∀ m, ∑ i ∈ Finset.range m, ∑ j ∈ Finset.range n, K (i * n + j)
      = ∑ k ∈ Finset.range (m * n), K k := by
  intro m
  induction m with
  | zero => simp
  | succ m ih =>
    rw [Finset.sum_range_succ, ih, Nat.succ_mul, Finset.sum_range_add]

theorem mem_foldl_append {γ : Type} (g : Nat → List γ) (a : γ) (n : Nat) (t0 : List γ) :
    a ∈ (List.range n).foldl (fun t k => t ++ g k) t0
      ↔ a ∈ t0 ∨ ∃ k, k < n ∧ a ∈ g k := by
  induction n with
  | zero => simp
  | succ n ih =>
    rw [List.range_succ, List.foldl_append]
    simp only [List.foldl_cons, List.foldl_nil, List.mem_append, ih]
    constructor
    · rintro ((h | ⟨k, hk, h⟩) | h)
      · exact Or.inl h
      · exact Or.inr ⟨k, by omega, h⟩
      · exact Or.inr ⟨n, by omega, h⟩
    · rintro (h | ⟨k, hk, h⟩)
      · exact Or.inl (Or.inl h)
      · by_cases hkn : k = n
        · subst hkn; exact Or.inr h
        · exact Or.inl (Or.inr ⟨k, by omega, h⟩)

theorem mem_foldl_append2 {γ : Type} (G : Nat → Nat → List γ) (a : γ) (n m : Nat)
    (t0 : List γ) :
    a ∈ (List.range m).foldl
        (fun t i => (List.range n).foldl (fun t j => t ++ G i j) t) t0
      ↔ a ∈ t0 ∨ ∃ i, i < m ∧ ∃ j, j < n ∧ a ∈ G i j := by
  induction m with
  | zero => simp
  | succ m ih =>
    rw [List.range_succ, List.foldl_append]
    simp only [List.foldl_cons, List.foldl_nil, mem_foldl_append, ih]
    constructor
    · rintro ((h | ⟨i, hi, h⟩) | ⟨j, hj, h⟩)
      · exact Or.inl h
      · exact Or.inr ⟨i, by omega, h⟩
      · exact Or.inr ⟨m, by omega, j, hj, h⟩
    · rintro (h | ⟨i, hi, h⟩)
      · exact Or.inl (Or.inl h)
      · by_cases him : i = m
        · subst him; exact Or.inr h
        · exact Or.inl (Or.inr ⟨i, by omega, h⟩)

theorem holds_of_lt (img : IImage) (r c : Nat) (hr : r < img.rows) (hc : c < img.columns)
    (hst : 4 * img.columns ≤ img.stride) :
    img.Holds (r * img.stride + 4 * c)
      ∧ r * img.stride + 4 * c + 4 ≤ img.rows * img.stride := by
  refine ⟨⟨r, hr, c, hc, rfl⟩, ?_⟩
  have h1 : (r + 1) * img.stride ≤ img.rows * img.stride :=
    Nat.mul_le_mul_right _ (by omega)
  have h2 : (r + 1) * img.stride = r * img.stride + img.stride := by ring
  omega

/-- The accesses of a pass are those of its pixels, each followed by the store. -/
theorem mem_nest (ds rows cols : Nat) (px : Nat → Nat → List Access)
    (a : Access) :
    a ∈ (forLoop (fun row => decide (row < rows))
      (fun row t =>
        (forLoop (fun col => decide (col < cols))
          (fun col t => t ++ px row col ++ [Access.destWrite (row * ds + 4 * col)])
          cols 0 t).2)
      rows 0 []).2
    ↔ ∃ row, row < rows ∧ ∃ col, col < cols ∧
        (a ∈ px row col ∨ a = Access.destWrite (row * ds + 4 * col)) := by
  rw [nest_eq (fun t off l => t ++ l ++ [Access.destWrite off]) ds rows cols px []]
  simp only [List.append_assoc]
  rw [mem_foldl_append2 (fun row col => px row col ++ [Access.destWrite (row * ds + 4 * col)])]
  simp

theorem row_mem_pixel (mRadius : Nat) (src : IImage) (row col : Nat)
    (a : Access) (hcol : col < src.columns) (hf : Fits mRadius src)
    (ha : a ∈ CpuRowConvolutionFilter.pixel
      (fun l p k => l ++ [Access.srcRead p, Access.kernelRead k]) [] mRadius src row col) :
    ∃ k, k < 2 * mRadius + 1 ∧
      (a = Access.srcRead
          (row * src.stride + 4 * min (col + k - mRadius) (src.columns - 1))
        ∨ a = Access.kernelRead k) := by
  obtain ⟨hf1, hf2⟩ := hf
  rw [row_pixel_eq _ _ _ _ _ _ hcol (by omega) (by omega) (by omega),
    mem_foldl_append (fun k => [Access.srcRead
      (row * src.stride + 4 * min (col + k - mRadius) (src.columns - 1)),
      Access.kernelRead k])] at ha
  simpa using ha

theorem column_mem_pixel (mRadius : Nat) (src : IImage) (row col : Nat)
    (a : Access) (hrow : row < src.rows) (hf : Fits mRadius src)
    (ha : a ∈ CpuColumnConvolutionFilter.pixel
      (fun l p k => l ++ [Access.srcRead p, Access.kernelRead k]) [] mRadius src row col) :
    ∃ k, k < 2 * mRadius + 1 ∧
      (a = Access.srcRead
          (min (row + k - mRadius) (src.rows - 1) * src.stride + 4 * col)
        ∨ a = Access.kernelRead k) := by
  obtain ⟨hf1, hf2⟩ := hf
  rw [column_pixel_eq _ _ _ _ _ _ hrow (by omega) (by omega) (by omega),
    mem_foldl_append (fun k => [Access.srcRead
      (min (row + k - mRadius) (src.rows - 1) * src.stride + 4 * col),
      Access.kernelRead k])] at ha
  simpa using ha

theorem full_mem_pixel (mRadius : Nat) (src : IImage) (row col : Nat)
    (a : Access) (hrow : row < src.rows) (hcol : col < src.columns) (hf : Fits mRadius src)
    (ha : a ∈ CpuConvolutionFilter.pixel
      (fun l p k => l ++ [Access.srcRead p, Access.kernelRead k]) [] mRadius src row col) :
    ∃ i, i < 2 * mRadius + 1 ∧ ∃ j, j < 2 * mRadius + 1 ∧
      (a = Access.srcRead
          (min (row + i - mRadius) (src.rows - 1) * src.stride
            + 4 * min (col + j - mRadius) (src.columns - 1))
        ∨ a = Access.kernelRead ((i * (2 * mRadius + 1) + j) % 4294967296)) := by
  obtain ⟨hf1, hf2⟩ := hf
  rw [full_pixel_eq _ _ _ _ _ _ hrow hcol (by omega) (by omega) (by omega)
      (by omega) (by omega),
    mem_foldl_append2 (fun i j => [Access.srcRead
      (min (row + i - mRadius) (src.rows - 1) * src.stride
        + 4 * min (col + j - mRadius) (src.columns - 1)),
      Access.kernelRead ((i * (2 * mRadius + 1) + j) % 4294967296)])] at ha
  simpa using ha

/-- C7: for every image with `stride >= 4*columns`, every radius `R` with
`R + max(rows, columns) < 2^32` and `2R+1 < 2^32` (also `R >= rows` or `R >= columns`),
a kernel of `2R+1` weights (1D) or `(2R+1)^2` weights (2D) and a destination of the same
dimensions, every source sample read by each of the three `convolve` operations is at a
position `(r, c)` with `r < rows` and `c < columns`, every kernel index used is below the
kernel length, and every destination write is at a position inside the destination: no
out-of-range access occurs. -/
theorem accesses_in_bounds (mRadius : Nat) (dest src : IImage) (a : Access)
    (hs : dest.SameShape src) (hst : 4 * src.columns ≤ src.stride)
    (hf : Fits mRadius src) :
    (a ∈ CpuConvolutionFilter.accesses mRadius dest.stride src →
      a.InBounds ((2 * mRadius + 1) * (2 * mRadius + 1)) dest src)
    ∧ (a ∈ CpuRowConvolutionFilter.accesses mRadius dest.stride src →
      a.InBounds (2 * mRadius + 1) dest src)
    ∧ (a ∈ CpuColumnConvolutionFilter.accesses mRadius dest.stride src →
      a.InBounds (2 * mRadius + 1) dest src) := by
  obtain ⟨hs1, hs2, hs3⟩ := hs
  have hw : ∀ row col, row < src.rows → col < src.columns →
      ∀ klen, (Access.destWrite (row * dest.stride + 4 * col)).InBounds klen dest src := by
    intro row col hrow hcol klen
    exact holds_of_lt dest row col (by omega) (by omega) hs3
  refine ⟨?_, ?_, ?_⟩
  · intro ha
    unfold CpuConvolutionFilter.accesses CpuConvolutionFilter.run at ha
    rw [mem_nest] at ha
    obtain ⟨row, hrow, col, hcol, h | h⟩ := ha
    · obtain ⟨i, hi, j, hj, h | h⟩ :=
        full_mem_pixel mRadius src row col a hrow hcol hf h
      · rw [h]
        exact holds_of_lt src _ _ (by omega) (by omega) hst
      · rw [h]
        show (i * (2 * mRadius + 1) + j) % 4294967296 < (2 * mRadius + 1) * (2 * mRadius + 1)
        have h1 : i * (2 * mRadius + 1) ≤ (2 * mRadius) * (2 * mRadius + 1) :=
          Nat.mul_le_mul_right _ (by omega)
        have h2 : (2 * mRadius + 1) * (2 * mRadius + 1)
            = (2 * mRadius) * (2 * mRadius + 1) + (2 * mRadius + 1) := by ring
        have h3 := Nat.mod_le (i * (2 * mRadius + 1) + j) 4294967296
        omega
    · rw [h]
      exact hw row col hrow hcol _
  · intro ha
    unfold CpuRowConvolutionFilter.accesses CpuRowConvolutionFilter.run at ha
    rw [mem_nest] at ha
    obtain ⟨row, hrow, col, hcol, h | h⟩ := ha
    · obtain ⟨k, hk, h | h⟩ := row_mem_pixel mRadius src row col a hcol hf h
      · rw [h]
        exact holds_of_lt src _ _ hrow (by omega) hst
      · rw [h]
        exact hk
    · rw [h]
      exact hw row col hrow hcol _
  · intro ha
    unfold CpuColumnConvolutionFilter.accesses CpuColumnConvolutionFilter.run at ha
    rw [mem_nest] at ha
    obtain ⟨row, hrow, col, hcol, h | h⟩ := ha
    · obtain ⟨k, hk, h | h⟩ :=
        column_mem_pixel mRadius src row col a hrow hf h
      · rw [h]
        exact holds_of_lt src _ _ (by omega) hcol hst
      · rw [h]
        exact hk
    · rw [h]
      exact hw row col hrow hcol _

/-- Witness of C7: a 1x2 image, smaller than the kernel of radius 3, and the read of the
last sample of its row. -/
theorem accesses_in_bounds_witness :
    (Access.srcRead 4 ∈ CpuRowConvolutionFilter.accesses 3 8 (IImage.ofFn 1 2 fun _ c => c))
    ∧ (Access.srcRead 4).InBounds (2 * 3 + 1) (IImage.ofFn 1 2 fun _ _ => 0)
        (IImage.ofFn 1 2 fun _ c => c) :=
  ⟨by decide,
   (accesses_in_bounds 3 (IImage.ofFn 1 2 fun _ _ => 0) (IImage.ofFn 1 2 fun _ c => c)
      (Access.srcRead 4) (by simp [IImage.SameShape, IImage.ofFn])
      (by simp [IImage.ofFn]) (by simp [Fits, IImage.ofFn])).2.1 (by decide)⟩

/-! ## Destination dimensions and prior contents -/

/-- C9: for every source image, radius and kernel, and any two destinations of the
source's dimensions with arbitrary prior contents, each `convolve` operation assigns
every pixel `(row, col)`, and the two resulting destinations agree at every such pixel:
the value written depends only on the source samples and the kernel, never on what the
destination held before. -/
theorem convolve_pure (mRadius : Nat) (mKernel : Nat → ℚ) (src dest1 dest2 : IImage)
    (row col : Nat) (h1 : dest1.SameShape src) (h2 : dest2.SameShape src)
    (hrow : row < src.rows) (hcol : col < src.columns) :
    (CpuConvolutionFilter.convolve mRadius mKernel dest1 src).sample row col
        = (CpuConvolutionFilter.convolve mRadius mKernel dest2 src).sample row col
    ∧ (CpuRowConvolutionFilter.convolve mRadius mKernel dest1 src).sample row col
        = (CpuRowConvolutionFilter.convolve mRadius mKernel dest2 src).sample row col
    ∧ (CpuColumnConvolutionFilter.convolve mRadius mKernel dest1 src).sample row col
        = (CpuColumnConvolutionFilter.convolve mRadius mKernel dest2 src).sample row col := by
  refine ⟨?_, ?_, ?_⟩
  · rw [full_sample_convolve _ _ _ _ _ _ h1 hrow hcol,
      full_sample_convolve _ _ _ _ _ _ h2 hrow hcol]
  · rw [row_sample_convolve _ _ _ _ _ _ h1 hrow hcol,
      row_sample_convolve _ _ _ _ _ _ h2 hrow hcol]
  · rw [column_sample_convolve _ _ _ _ _ _ h1 hrow hcol,
      column_sample_convolve _ _ _ _ _ _ h2 hrow hcol]

/-- Witness of C9: two 2x2 destinations, of strides 8 and 12 and of different prior
contents, for the source `[[1,2],[3,4]]`. -/
theorem convolve_pure_witness :
    (CpuConvolutionFilter.convolve 1 (fun k => k) (IImage.ofFn 2 2 fun _ _ => 0)
        (IImage.ofFn 2 2 fun r c => 2 * r + c + 1)).sample 1 1
      = (CpuConvolutionFilter.convolve 1 (fun k => k) ⟨2, 2, 12, fun off => off⟩
        (IImage.ofFn 2 2 fun r c => 2 * r + c + 1)).sample 1 1 :=
  (convolve_pure 1 (fun k => k) (IImage.ofFn 2 2 fun r c => 2 * r + c + 1)
    (IImage.ofFn 2 2 fun _ _ => 0) ⟨2, 2, 12, fun off => off⟩ 1 1
    (by simp [IImage.SameShape, IImage.ofFn]) (by simp [IImage.SameShape, IImage.ofFn])
    (by simp [IImage.ofFn]) (by simp [IImage.ofFn])).1

/-! ## Clipping in 32-bit unsigned arithmetic -/

/-- The row pass is its three loops run between `clipStart` and `clipEnd` of the
column index, from the sample `firstSample`. -/
theorem row_pixel_clip {α : Type} (acc : α → Nat → Nat → α) (x0 : α)
    (mRadius : Nat) (src : IImage) (row col : Nat) :
    CpuRowConvolutionFilter.pixel acc x0 mRadius src row col
      = (let start := clipStart mRadius col
         let end_ := clipEnd mRadius src.columns col
         let srcp := row * src.stride + 4 * firstSample mRadius col
         let l1 := forLoop (fun k => decide (k < start))
           (fun k s => ⟨s.p, acc s.x s.p k⟩) start 0 (⟨srcp, x0⟩ : Cursor α)
         let l2 := forLoop (fun k => decide (k < end_))
           (fun k s => ⟨s.p + 4, acc s.x s.p k⟩) end_ l1.1 l1.2
         let l3 := forLoop (fun k => decide (k ≤ u32mul 2 mRadius))
           (fun k s => ⟨s.p, acc s.x s.p k⟩) (u32mul 2 mRadius + 1) l2.1 l2.2
         l3.2.x) :=
  rfl

/-- The column pass is its three loops run between `clipStart` and `clipEnd` of the
row index, from the sample `firstSample`. -/
theorem column_pixel_clip {α : Type} (acc : α → Nat → Nat → α) (x0 : α)
    (mRadius : Nat) (src : IImage) (row col : Nat) :
    CpuColumnConvolutionFilter.pixel acc x0 mRadius src row col
      = (let start := clipStart mRadius row
         let end_ := clipEnd mRadius src.rows row
         let srcp := firstSample mRadius row * src.stride + col * 4
         let l1 := forLoop (fun i => decide (i < start))
           (fun i s => ⟨s.p, acc s.x s.p i⟩) start 0 (⟨srcp, x0⟩ : Cursor α)
         let l2 := forLoop (fun i => decide (i < end_))
           (fun i s => ⟨s.p + src.stride, acc s.x s.p i⟩) end_ l1.1 l1.2
         let l3 := forLoop (fun i => decide (i ≤ u32mul 2 mRadius))
           (fun i s => ⟨s.p, acc s.x s.p i⟩) (u32mul 2 mRadius + 1) l2.1 l2.2
         l3.2.x) :=
  rfl

/-- The full 2D pass is its three row bands run between `clipStart` and `clipEnd` of the
row index, each with the three column loops between those of the column index. -/
theorem full_pixel_clip {α : Type} (acc : α → Nat → Nat → α) (x0 : α)
    (mRadius : Nat) (src : IImage) (row col : Nat) :
    CpuConvolutionFilter.pixel acc x0 mRadius src row col
      = (let cstart := clipStart mRadius col
         let rstart := clipStart mRadius row
         let cend := clipEnd mRadius src.columns col
         let rend := clipEnd mRadius src.rows row
         let rowp := firstSample mRadius row * src.stride + firstSample mRadius col * 4
         let l1 := forLoop (fun i => decide (i < rstart))
           (fun i s =>
             ⟨s.p, CpuConvolutionFilter.columnLoops acc mRadius cstart cend i s.p s.x⟩)
           rstart 0 (⟨rowp, x0⟩ : Cursor α)
         let l2 := forLoop (fun i => decide (i < rend))
           (fun i s => ⟨s.p + src.stride,
             CpuConvolutionFilter.columnLoops acc mRadius cstart cend i s.p s.x⟩)
           rend l1.1 l1.2
         let l3 := forLoop (fun i => decide (i ≤ u32mul 2 mRadius))
           (fun i s =>
             ⟨s.p, CpuConvolutionFilter.columnLoops acc mRadius cstart cend i s.p s.x⟩)
           (u32mul 2 mRadius + 1) l2.1 l2.2
         l3.2.x) :=
  rfl

theorem in_range_taps (R n c s e : Nat) (hc : c < n) (hs : s = R - c)
    (he : e = min (n - 1 - c + R) (2 * R)) :
    (Finset.range (2 * R + 1)).filter (fun k => R ≤ c + k ∧ c + k - R < n)
      = Finset.Icc s e := by
  ext k
  simp only [Finset.mem_filter, Finset.mem_range, Finset.mem_Icc]
  omega

/-- C16: for every `col < columns` and radius `R` with `col + R < 2^32` and `2R < 2^32`,
the bounds computed in 32-bit unsigned arithmetic satisfy `0 <= start <= end <= 2R` with
`start = max(R - col, 0)` and `end = min(columns - 1 - col + R, 2R)`, so that
`end - start + 1` is exactly the number of taps whose sample is in range; and the
first-sample offset `col - mRadius + start`, whose intermediate `col - mRadius` wraps
modulo `2^32` when `col < R`, evaluates to `max(col - R, 0)`.  The bounds `rstart`,
`rend` and the offset `row - mRadius + rstart` are the same functions of the row index
and `rows`. -/
theorem clipping_bounds (mRadius n c : Nat) (hc : c < n)
    (hR : c + mRadius < 4294967296) (h2 : 2 * mRadius < 4294967296) :
    clipStart mRadius c ≤ clipEnd mRadius n c
    ∧ clipEnd mRadius n c ≤ 2 * mRadius
    ∧ (clipStart mRadius c : ℤ) = max ((mRadius : ℤ) - c) 0
    ∧ (clipEnd mRadius n c : ℤ) = min ((n : ℤ) - 1 - c + mRadius) (2 * mRadius)
    ∧ ((Finset.range (2 * mRadius + 1)).filter
          (fun k => mRadius ≤ c + k ∧ c + k - mRadius < n)).card
        = clipEnd mRadius n c - clipStart mRadius c + 1
    ∧ (c < mRadius → u32sub c mRadius = c + 4294967296 - mRadius)
    ∧ (firstSample mRadius c : ℤ) = max ((c : ℤ) - mRadius) 0 := by
  have hs : clipStart mRadius c = mRadius - c := by
    unfold clipStart u32sub
    split <;> omega
  have he : clipEnd mRadius n c = min (n - 1 - c + mRadius) (2 * mRadius) := by
    unfold clipEnd u32sub u32add u32mul
    split <;> omega
  have hf : firstSample mRadius c = c - mRadius := by
    unfold firstSample
    rw [hs]
    unfold u32sub u32add
    omega
  refine ⟨by omega, by omega, by omega, by omega, ?_, ?_, by omega⟩
  · rw [in_range_taps mRadius n c _ _ hc hs he, Nat.card_Icc]
    omega
  · intro hlt
    unfold u32sub
    omega

/-- Witness of C16: the first column of a row of 5 samples, radius 2; `0 - 2` wraps to
`2^32 - 2`. -/
theorem clipping_bounds_witness :
    clipStart 2 0 ≤ clipEnd 2 5 0
    ∧ clipEnd 2 5 0 ≤ 2 * 2
    ∧ (clipStart 2 0 : ℤ) = max ((2 : ℤ) - (0 : Nat)) 0
    ∧ (clipEnd 2 5 0 : ℤ) = min (((5 : Nat) : ℤ) - 1 - (0 : Nat) + (2 : Nat)) (2 * (2 : Nat))
    ∧ ((Finset.range (2 * 2 + 1)).filter (fun k => 2 ≤ 0 + k ∧ 0 + k - 2 < 5)).card
        = clipEnd 2 5 0 - clipStart 2 0 + 1
    ∧ (0 < 2 → u32sub 0 2 = 0 + 4294967296 - 2)
    ∧ (firstSample 2 0 : ℤ) = max (((0 : Nat) : ℤ) - (2 : Nat)) 0 :=
  clipping_bounds 2 5 0 (by decide) (by decide) (by decide)

/-! ## What the three-segment loops compute -/

theorem clampIndex_eq (n R c k : Nat) :
    clampIndex n ((c : ℤ) + k - R) = min (c + k - R) (n - 1) := by
  unfold clampIndex
  omega

theorem foldl_index_row (b n : Nat) (x : List Nat) :
    (List.range n).foldl (fun x j => x ++ [b + j]) x = x ++ List.range' b n := by
  induction n with
  | zero => simp
  | succ n ih =>
    rw [List.range_succ, List.foldl_append, ih, List.range'_concat]
    simp

theorem foldl_index_rows (n : Nat) :
    ∀ m, (List.range m).foldl
        (fun x i => (List.range n).foldl (fun x j => x ++ [i * n + j]) x) []
      = List.range (m * n) := by
  intro m
  induction m with
  | zero => simp
  | succ m ih =>
    rw [List.range_succ, List.foldl_append, ih]
    simp only [List.foldl_cons, List.foldl_nil]
    rw [foldl_index_row, List.range_eq_range', List.range_eq_range']
    have h := List.range'_append_1 0 (m * n) n
    rw [Nat.zero_add] at h
    rw [h]
    congr 1
    ring

/-- C12: for every image with rows, columns >= 1, every radius `R`, every kernel of
`(2R+1)^2` weights and every pixel `(row, col)`, `CpuConvolutionFilter::convolve` writes
the sum over ALL `dr, dc` in `[0,2R]` of
`kernel[dr*(2R+1)+dc] * src[clampR(row+dr-R)][clampC(col+dc-R)]`, where
`clampR(x) = min(max(x,0), rows-1)` and `clampC(x) = min(max(x,0), columns-1)` over the
integers; every one of the `(2R+1)^2` weights is used exactly once for every pixel, with
out-of-range taps reading the nearest edge sample. -/
theorem full_three_band_loop (mRadius : Nat) (mKernel : Nat → ℚ)
    (dest src : IImage) (row col : Nat) (hs : dest.SameShape src) (hf : Fits mRadius src)
    (hk : KernelFits mRadius) (hrow : row < src.rows) (hcol : col < src.columns) :
    (CpuConvolutionFilter.convolve mRadius mKernel dest src).sample row col
      = ∑ dr ∈ Finset.range (2 * mRadius + 1), ∑ dc ∈ Finset.range (2 * mRadius + 1),
          mKernel (dr * (2 * mRadius + 1) + dc)
            * src.sample (clampIndex src.rows ((row : ℤ) + dr - mRadius))
                (clampIndex src.columns ((col : ℤ) + dc - mRadius))
    ∧ CpuConvolutionFilter.kernelIndices mRadius src row col
        = List.range ((2 * mRadius + 1) * (2 * mRadius + 1)) := by
  obtain ⟨hf1, hf2⟩ := hf
  constructor
  · rw [full_clamped mRadius mKernel dest src row col hs (by omega) (by omega)
      (by omega) (by omega) hk hrow hcol]
    apply Finset.sum_congr rfl
    intro i _
    apply Finset.sum_congr rfl
    intro j _
    rw [clampIndex_eq, clampIndex_eq, mul_comm]
  · unfold CpuConvolutionFilter.kernelIndices
    rw [full_pixel_eq _ _ _ _ _ _ hrow hcol (by omega) (by omega) (by omega) (by omega)
      (by omega), ← foldl_index_rows (2 * mRadius + 1) (2 * mRadius + 1)]
    apply List.foldl_ext
    intro a i hi
    apply List.foldl_ext
    intro b j hj
    rw [kernel_index_fits mRadius i j hk (List.mem_range.mp hi) (List.mem_range.mp hj)]

/-- Witness of C12: the 2x2 image `[[1,2],[3,4]]`, radius 1, at the corner `(0,0)`. -/
theorem full_three_band_loop_witness :
    (CpuConvolutionFilter.convolve 1 (fun k => k) (IImage.ofFn 2 2 fun _ _ => 0)
        (IImage.ofFn 2 2 fun r c => 2 * r + c + 1)).sample 0 0
      = ∑ dr ∈ Finset.range (2 * 1 + 1), ∑ dc ∈ Finset.range (2 * 1 + 1),
          (fun k : Nat => (k : ℚ)) (dr * (2 * 1 + 1) + dc)
            * (IImage.ofFn 2 2 fun r c => 2 * r + c + 1).sample
                (clampIndex (IImage.ofFn 2 2 fun r c => 2 * r + c + 1).rows
                  (((0 : Nat) : ℤ) + dr - (1 : Nat)))
                (clampIndex (IImage.ofFn 2 2 fun r c => 2 * r + c + 1).columns
                  (((0 : Nat) : ℤ) + dc - (1 : Nat)))
    ∧ CpuConvolutionFilter.kernelIndices 1 (IImage.ofFn 2 2 fun r c => 2 * r + c + 1) 0 0
        = List.range ((2 * 1 + 1) * (2 * 1 + 1)) :=
  full_three_band_loop 1 (fun k => k) (IImage.ofFn 2 2 fun _ _ => 0)
    (IImage.ofFn 2 2 fun r c => 2 * r + c + 1) 0 0
    (by simp [IImage.SameShape, IImage.ofFn]) (by simp [Fits, IImage.ofFn])
    (by simp [KernelFits]) (by simp [IImage.ofFn]) (by simp [IImage.ofFn])

/-- C13: for every image with rows, columns >= 1, radius `R`, kernel of `2R+1` weights
and pixel `(row, col)`, `CpuRowConvolutionFilter::convolve` writes the sum over all `k`
in `[0,2R]` of `kernel[k] * src[row][min(max(col+k-R,0), columns-1)]` (output row `r`
reads source row `r` only), and `CpuColumnConvolutionFilter::convolve` writes the sum
over all `k` of `kernel[k] * src[min(max(row+k-R,0), rows-1)][col]` (output column `c`
reads source column `c` only). -/
theorem three_segment_loops (mRadius : Nat) (mKernel : Nat → ℚ)
    (dest src : IImage) (row col : Nat) (hs : dest.SameShape src) (hf : Fits mRadius src)
    (hrow : row < src.rows) (hcol : col < src.columns) :
    (CpuRowConvolutionFilter.convolve mRadius mKernel dest src).sample row col
        = ∑ k ∈ Finset.range (2 * mRadius + 1),
            mKernel k * src.sample row (clampIndex src.columns ((col : ℤ) + k - mRadius))
    ∧ (CpuColumnConvolutionFilter.convolve mRadius mKernel dest src).sample row col
        = ∑ k ∈ Finset.range (2 * mRadius + 1),
            mKernel k * src.sample (clampIndex src.rows ((row : ℤ) + k - mRadius)) col := by
  constructor
  · rw [row_clamped mRadius mKernel dest src row col hs hf hrow hcol]
    apply Finset.sum_congr rfl
    intro k _
    rw [clampIndex_eq, mul_comm]
  · rw [column_clamped mRadius mKernel dest src row col hs hf hrow hcol]
    apply Finset.sum_congr rfl
    intro k _
    rw [clampIndex_eq, mul_comm]

/-- Witness of C13: the 2x2 image `[[1,2],[3,4]]`, radius 1, at the corner `(0,0)`. -/
theorem three_segment_loops_witness :
    (CpuRowConvolutionFilter.convolve 1 (fun k => k) (IImage.ofFn 2 2 fun _ _ => 0)
        (IImage.ofFn 2 2 fun r c => 2 * r + c + 1)).sample 0 0
      = ∑ k ∈ Finset.range (2 * 1 + 1),
          (fun k : Nat => (k : ℚ)) k
            * (IImage.ofFn 2 2 fun r c => 2 * r + c + 1).sample 0
                (clampIndex (IImage.ofFn 2 2 fun r c => 2 * r + c + 1).columns
                  (((0 : Nat) : ℤ) + k - (1 : Nat))) :=
  (three_segment_loops 1 (fun k => k) (IImage.ofFn 2 2 fun _ _ => 0)
    (IImage.ofFn 2 2 fun r c => 2 * r + c + 1) 0 0
    (by simp [IImage.SameShape, IImage.ofFn]) (by simp [Fits, IImage.ofFn])
    (by simp [IImage.ofFn]) (by simp [IImage.ofFn])).1

/-! ## The two 1D passes commute -/

theorem fits_of_shape (mRadius : Nat) (a src : IImage) (h1 : a.rows = src.rows)
    (h2 : a.columns = src.columns) (hf : Fits mRadius src) : Fits mRadius a := by
  unfold Fits at hf ⊢
  rw [h1, h2]
  exact hf

theorem sameShape_of_shape (dest a src : IImage) (h1 : a.rows = src.rows)
    (h2 : a.columns = src.columns) (hd : dest.SameShape src) : dest.SameShape a := by
  unfold IImage.SameShape at hd ⊢
  rw [h1, h2]
  exact hd

/-- The row pass of radius `Ru` followed by the column pass of radius `Rv`. -/
theorem row_then_column_radii (Ru Rv : Nat) (u v : Nat → ℚ) (tmp dest src : IImage)
    (row col : Nat) (ht : tmp.SameShape src) (hd : dest.SameShape src)
    (hfu : Fits Ru src) (hfv : Fits Rv src)
    (hrow : row < src.rows) (hcol : col < src.columns) :
    (CpuColumnConvolutionFilter.convolve Rv v dest
        (CpuRowConvolutionFilter.convolve Ru u tmp src)).sample row col
      = ∑ i ∈ Finset.range (2 * Rv + 1), ∑ j ∈ Finset.range (2 * Ru + 1),
          src.sample (min (row + i - Rv) (src.rows - 1))
              (min (col + j - Ru) (src.columns - 1)) * (v i * u j) := by
  obtain ⟨e1, e2⟩ := row_convolve_shape Ru u tmp src ht
  rw [column_clamped Rv v dest _ row col (sameShape_of_shape dest _ src e1 e2 hd)
    (fits_of_shape Rv _ src e1 e2 hfv) (by rw [e1]; exact hrow) (by rw [e2]; exact hcol), e1]
  apply Finset.sum_congr rfl
  intro i _
  rw [row_clamped Ru u tmp src _ col ht hfu (by omega) hcol, Finset.sum_mul]
  apply Finset.sum_congr rfl
  intro j _
  ring

/-- The column pass of radius `Rv` followed by the row pass of radius `Ru`. -/
theorem column_then_row_radii (Ru Rv : Nat) (u v : Nat → ℚ) (tmp dest src : IImage)
    (row col : Nat) (ht : tmp.SameShape src) (hd : dest.SameShape src)
    (hfu : Fits Ru src) (hfv : Fits Rv src)
    (hrow : row < src.rows) (hcol : col < src.columns) :
    (CpuRowConvolutionFilter.convolve Ru u dest
        (CpuColumnConvolutionFilter.convolve Rv v tmp src)).sample row col
      = ∑ j ∈ Finset.range (2 * Ru + 1), ∑ i ∈ Finset.range (2 * Rv + 1),
          src.sample (min (row + i - Rv) (src.rows - 1))
              (min (col + j - Ru) (src.columns - 1)) * (v i * u j) := by
  obtain ⟨e1, e2⟩ := column_convolve_shape Rv v tmp src ht
  rw [row_clamped Ru u dest _ row col (sameShape_of_shape dest _ src e1 e2 hd)
    (fits_of_shape Ru _ src e1 e2 hfu) (by rw [e1]; exact hrow) (by rw [e2]; exact hcol), e2]
  apply Finset.sum_congr rfl
  intro j _
  rw [column_clamped Rv v tmp src row _ ht hfv hrow (by omega), Finset.sum_mul]
  apply Finset.sum_congr rfl
  intro i _
  ring

/-- C14: for every image, every row kernel `u` of radius `Ru` and every column kernel
`v` of radius `Rv` (the radii may differ), `CpuRowConvolutionFilter::convolve` with `u`
followed by `CpuColumnConvolutionFilter::convolve` with `v` gives at every pixel the same
result as the column pass with `v` followed by the row pass with `u`. -/
theorem passes_commute (Ru Rv : Nat) (u v : Nat → ℚ) (tmp1 dest1 tmp2 dest2 src : IImage)
    (row col : Nat) (ht1 : tmp1.SameShape src) (hd1 : dest1.SameShape src)
    (ht2 : tmp2.SameShape src) (hd2 : dest2.SameShape src)
    (hfu : Fits Ru src) (hfv : Fits Rv src)
    (hrow : row < src.rows) (hcol : col < src.columns) :
    (CpuColumnConvolutionFilter.convolve Rv v dest1
        (CpuRowConvolutionFilter.convolve Ru u tmp1 src)).sample row col
      = (CpuRowConvolutionFilter.convolve Ru u dest2
        (CpuColumnConvolutionFilter.convolve Rv v tmp2 src)).sample row col := by
  rw [row_then_column_radii Ru Rv u v tmp1 dest1 src row col ht1 hd1 hfu hfv hrow hcol,
    column_then_row_radii Ru Rv u v tmp2 dest2 src row col ht2 hd2 hfu hfv hrow hcol]
  exact Finset.sum_comm

/-- Witness of C14: the 2x2 image `[[1,2],[3,4]]`, a row kernel of radius 2 and a column
kernel of radius 1, at the corner `(0,0)`. -/
theorem passes_commute_witness :
    (CpuColumnConvolutionFilter.convolve 1 (fun k => k + 1) (IImage.ofFn 2 2 fun _ _ => 0)
        (CpuRowConvolutionFilter.convolve 2 (fun k => k) (IImage.ofFn 2 2 fun _ _ => 0)
          (IImage.ofFn 2 2 fun r c => 2 * r + c + 1))).sample 0 0
      = (CpuRowConvolutionFilter.convolve 2 (fun k => k) (IImage.ofFn 2 2 fun _ _ => 0)
        (CpuColumnConvolutionFilter.convolve 1 (fun k => k + 1)
          (IImage.ofFn 2 2 fun _ _ => 0)
          (IImage.ofFn 2 2 fun r c => 2 * r + c + 1))).sample 0 0 :=
  passes_commute 2 1 (fun k => k) (fun k => k + 1) (IImage.ofFn 2 2 fun _ _ => 0)
    (IImage.ofFn 2 2 fun _ _ => 0) (IImage.ofFn 2 2 fun _ _ => 0)
    (IImage.ofFn 2 2 fun _ _ => 0) (IImage.ofFn 2 2 fun r c => 2 * r + c + 1) 0 0
    (by simp [IImage.SameShape, IImage.ofFn]) (by simp [IImage.SameShape, IImage.ofFn])
    (by simp [IImage.SameShape, IImage.ofFn]) (by simp [IImage.SameShape, IImage.ofFn])
    (by simp [Fits, IImage.ofFn]) (by simp [Fits, IImage.ofFn])
    (by simp [IImage.ofFn]) (by simp [IImage.ofFn])

/-! ## Averaging kernels -/

theorem weighted_bounds (n : Nat) (f w : Nat → ℚ) (lo hi : ℚ)
    (hw : ∀ k, k < n → 0 ≤ w k) (hsum : ∑ k ∈ Finset.range n, w k = 1)
    (hf : ∀ k, k < n → lo ≤ f k ∧ f k ≤ hi) :
    lo ≤ ∑ k ∈ Finset.range n, f k * w k ∧ ∑ k ∈ Finset.range n, f k * w k ≤ hi := by
  have hlo : ∑ k ∈ Finset.range n, lo * w k = lo := by
    rw [← Finset.mul_sum, hsum, mul_one]
  have hhi : ∑ k ∈ Finset.range n, hi * w k = hi := by
    rw [← Finset.mul_sum, hsum, mul_one]
  have h1 : ∑ k ∈ Finset.range n, lo * w k ≤ ∑ k ∈ Finset.range n, f k * w k := by
    apply Finset.sum_le_sum
    intro k hk
    have hk1 := Finset.mem_range.mp hk
    exact mul_le_mul_of_nonneg_right (hf k hk1).1 (hw k hk1)
  have h2 : ∑ k ∈ Finset.range n, f k * w k ≤ ∑ k ∈ Finset.range n, hi * w k := by
    apply Finset.sum_le_sum
    intro k hk
    have hk1 := Finset.mem_range.mp hk
    exact mul_le_mul_of_nonneg_right (hf k hk1).2 (hw k hk1)
  rw [hlo] at h1
  rw [hhi] at h2
  exact ⟨h1, h2⟩

theorem weighted_bounds2 (n : Nat) (f : Nat → Nat → ℚ) (w : Nat → ℚ) (lo hi : ℚ)
    (hw : ∀ k, k < n * n → 0 ≤ w k) (hsum : ∑ k ∈ Finset.range (n * n), w k = 1)
    (hf : ∀ i j, i < n → j < n → lo ≤ f i j ∧ f i j ≤ hi) :
    lo ≤ ∑ i ∈ Finset.range n, ∑ j ∈ Finset.range n, f i j * w (i * n + j)
    ∧ ∑ i ∈ Finset.range n, ∑ j ∈ Finset.range n, f i j * w (i * n + j) ≤ hi := by
  have hidx : ∀ i j, i < n → j < n → i * n + j < n * n := by
    intro i j hi hj
    have h1 : i * n ≤ (n - 1) * n := Nat.mul_le_mul_right _ (by omega)
    have h3 : n - 1 + 1 = n := by omega
    have h2 : (n - 1) * n + n = n * n := by
      have h4 : (n - 1) * n + n = (n - 1 + 1) * n := by ring
      rw [h4, h3]
    omega
  have hs : ∑ i ∈ Finset.range n, ∑ j ∈ Finset.range n, w (i * n + j) = 1 := by
    rw [sum_kernel_rows w n n, hsum]
  have hlo : ∑ i ∈ Finset.range n, ∑ j ∈ Finset.range n, lo * w (i * n + j) = lo := by
    simp only [← Finset.mul_sum]
    rw [hs, mul_one]
  have hhi : ∑ i ∈ Finset.range n, ∑ j ∈ Finset.range n, hi * w (i * n + j) = hi := by
    simp only [← Finset.mul_sum]
    rw [hs, mul_one]
  have h1 : ∑ i ∈ Finset.range n, ∑ j ∈ Finset.range n, lo * w (i * n + j)
      ≤ ∑ i ∈ Finset.range n, ∑ j ∈ Finset.range n, f i j * w (i * n + j) := by
    apply Finset.sum_le_sum
    intro i hi
    apply Finset.sum_le_sum
    intro j hj
    have hi1 := Finset.mem_range.mp hi
    have hj1 := Finset.mem_range.mp hj
    exact mul_le_mul_of_nonneg_right (hf i j hi1 hj1).1 (hw _ (hidx i j hi1 hj1))
  have h2 : ∑ i ∈ Finset.range n, ∑ j ∈ Finset.range n, f i j * w (i * n + j)
      ≤ ∑ i ∈ Finset.range n, ∑ j ∈ Finset.range n, hi * w (i * n + j) := by
    apply Finset.sum_le_sum
    intro i hi'
    apply Finset.sum_le_sum
    intro j hj
    have hi1 := Finset.mem_range.mp hi'
    have hj1 := Finset.mem_range.mp hj
    exact mul_le_mul_of_nonneg_right (hf i j hi1 hj1).2 (hw _ (hidx i j hi1 hj1))
  rw [hlo] at h1
  rw [hhi] at h2
  exact ⟨h1, h2⟩

/-- A smallest and a largest sample of a non-empty image. -/
theorem exists_extreme_samples (src : IImage) (hr : 0 < src.rows) (hc : 0 < src.columns) :
    ∃ rmin cmin rmax cmax, rmin < src.rows ∧ cmin < src.columns
      ∧ rmax < src.rows ∧ cmax < src.columns
      ∧ ∀ r c, r < src.rows → c < src.columns →
          src.sample rmin cmin ≤ src.sample r c ∧ src.sample r c ≤ src.sample rmax cmax := by
  have hne : (Finset.range src.rows ×ˢ Finset.range src.columns).Nonempty :=
    ⟨(0, 0), by simp [hr, hc]⟩
  obtain ⟨pmin, hpmin, hmin⟩ := Finset.exists_min_image _
    (fun p : Nat × Nat => src.sample p.1 p.2) hne
  obtain ⟨pmax, hpmax, hmax⟩ := Finset.exists_max_image _
    (fun p : Nat × Nat => src.sample p.1 p.2) hne
  simp only [Finset.mem_product, Finset.mem_range] at hpmin hpmax
  refine ⟨pmin.1, pmin.2, pmax.1, pmax.2, hpmin.1, hpmin.2, hpmax.1, hpmax.2, ?_⟩
  intro r c hr' hc'
  exact ⟨hmin (r, c) (by simp [hr', hc']), hmax (r, c) (by simp [hr', hc'])⟩

/-- C15 (amended): for every image with rows, columns >= 1 and every kernel whose weights
are all non-negative and sum to 1, with the sums and products taken in exact arithmetic,
every pixel written by each of the three `convolve` operations, border and corner pixels
included, lies between the minimum and the maximum sample of the source image: border
pixels are not darkened relative to the source range. -/
theorem averaging_range (mRadius : Nat) (K2 K1 : Nat → ℚ) (dest src : IImage)
    (row col : Nat) (hs : dest.SameShape src) (hf : Fits mRadius src)
    (hrow : row < src.rows) (hcol : col < src.columns) :
    ∃ rmin cmin rmax cmax, rmin < src.rows ∧ cmin < src.columns
      ∧ rmax < src.rows ∧ cmax < src.columns
      ∧ (∀ r c, r < src.rows → c < src.columns →
          src.sample rmin cmin ≤ src.sample r c ∧ src.sample r c ≤ src.sample rmax cmax)
      ∧ (KernelFits mRadius →
          (∀ k, k < (2 * mRadius + 1) * (2 * mRadius + 1) → 0 ≤ K2 k) →
          ∑ k ∈ Finset.range ((2 * mRadius + 1) * (2 * mRadius + 1)), K2 k = 1 →
          src.sample rmin cmin
              ≤ (CpuConvolutionFilter.convolve mRadius K2 dest src).sample row col
            ∧ (CpuConvolutionFilter.convolve mRadius K2 dest src).sample row col
              ≤ src.sample rmax cmax)
      ∧ ((∀ k, k < 2 * mRadius + 1 → 0 ≤ K1 k) →
          ∑ k ∈ Finset.range (2 * mRadius + 1), K1 k = 1 →
          (src.sample rmin cmin
              ≤ (CpuRowConvolutionFilter.convolve mRadius K1 dest src).sample row col
            ∧ (CpuRowConvolutionFilter.convolve mRadius K1 dest src).sample row col
              ≤ src.sample rmax cmax)
          ∧ (src.sample rmin cmin
              ≤ (CpuColumnConvolutionFilter.convolve mRadius K1 dest src).sample row col
            ∧ (CpuColumnConvolutionFilter.convolve mRadius K1 dest src).sample row col
              ≤ src.sample rmax cmax)) := by
  obtain ⟨hf1, hf2⟩ := id hf
  obtain ⟨rmin, cmin, rmax, cmax, h1, h2, h3, h4, hext⟩ :=
    exists_extreme_samples src (by omega) (by omega)
  refine ⟨rmin, cmin, rmax, cmax, h1, h2, h3, h4, hext, ?_, ?_⟩
  · intro hk hnn hsum
    rw [full_clamped mRadius K2 dest src row col hs (by omega) (by omega)
      (by omega) (by omega) hk hrow hcol]
    exact weighted_bounds2 (2 * mRadius + 1)
      (fun i j => src.sample (min (row + i - mRadius) (src.rows - 1))
        (min (col + j - mRadius) (src.columns - 1))) K2 _ _ hnn hsum
      (fun i j _ _ => hext _ _ (by omega) (by omega))
  · intro hnn hsum
    constructor
    · rw [row_clamped mRadius K1 dest src row col hs hf hrow hcol]
      exact weighted_bounds (2 * mRadius + 1)
        (fun k => src.sample row (min (col + k - mRadius) (src.columns - 1))) K1 _ _
        hnn hsum (fun k _ => hext _ _ hrow (by omega))
    · rw [column_clamped mRadius K1 dest src row col hs hf hrow hcol]
      exact weighted_bounds (2 * mRadius + 1)
        (fun k => src.sample (min (row + k - mRadius) (src.rows - 1)) col) K1 _ _
        hnn hsum (fun k _ => hext _ _ (by omega) hcol)

/-- Witness of C15 (amended): the 2x2 image `[[1,2],[3,4]]` and the box kernel of radius 1 with
weights 1/3, at the corner `(0,0)` of the row pass. -/
theorem averaging_range_witness :
    ∃ rmin cmin rmax cmax,
      (IImage.ofFn 2 2 fun r c => 2 * r + c + 1).sample rmin cmin
          ≤ (CpuRowConvolutionFilter.convolve 1 (fun _ => 1 / 3)
              (IImage.ofFn 2 2 fun _ _ => 0)
              (IImage.ofFn 2 2 fun r c => 2 * r + c + 1)).sample 0 0
      ∧ (CpuRowConvolutionFilter.convolve 1 (fun _ => 1 / 3)
              (IImage.ofFn 2 2 fun _ _ => 0)
              (IImage.ofFn 2 2 fun r c => 2 * r + c + 1)).sample 0 0
          ≤ (IImage.ofFn 2 2 fun r c => 2 * r + c + 1).sample rmax cmax := by
  obtain ⟨rmin, cmin, rmax, cmax, _, _, _, _, _, _, h⟩ :=
    averaging_range 1 (fun _ => 1 / 9) (fun _ => 1 / 3) (IImage.ofFn 2 2 fun _ _ => 0)
      (IImage.ofFn 2 2 fun r c => 2 * r + c + 1) 0 0
      (by simp [IImage.SameShape, IImage.ofFn]) (by simp [Fits, IImage.ofFn])
      (by simp [IImage.ofFn]) (by simp [IImage.ofFn])
  exact ⟨rmin, cmin, rmax, cmax,
    (h (fun _ _ => by norm_num) (by norm_num [Finset.sum_range_succ])).1⟩

/-! ## Strides and padding -/

theorem not_cell_of_outside (ds rows cols off : Nat)
    (h : ∀ r c, r < rows → c < cols → ¬ (r * ds + 4 * c ≤ off ∧ off < r * ds + 4 * c + 4)) :
    ∀ r c, r < rows → c < cols → off ≠ r * ds + 4 * c := by
  intro r c hr hc he
  exact h r c hr hc (by omega)

/-- C11: for source and destination images of the same rows x columns whose strides may
differ from each other and exceed `4*columns`, the value each `convolve` operation writes
at pixel `(row, col)` depends only on the source's logical samples (not on either stride
nor on the contents of the source's padding), it is stored at byte offset
`row*dest.stride + 4*col` of the destination, and every destination byte outside the
rows x columns sample cells (row padding) is left unchanged. -/
theorem stride_independence (mRadius : Nat) (mKernel : Nat → ℚ)
    (dest1 src1 dest2 src2 : IImage) (row col : Nat)
    (hs1 : dest1.SameShape src1) (hs2 : dest2.SameShape src2)
    (hr : src2.rows = src1.rows) (hc : src2.columns = src1.columns)
    (hsame : ∀ r c, r < src1.rows → c < src1.columns → src2.sample r c = src1.sample r c)
    (hf : Fits mRadius src1) (hrow : row < src1.rows) (hcol : col < src1.columns) :
    ((CpuConvolutionFilter.convolve mRadius mKernel dest1 src1).data
          (row * dest1.stride + 4 * col)
        = (CpuConvolutionFilter.convolve mRadius mKernel dest2 src2).data
          (row * dest2.stride + 4 * col)
      ∧ (CpuRowConvolutionFilter.convolve mRadius mKernel dest1 src1).data
          (row * dest1.stride + 4 * col)
        = (CpuRowConvolutionFilter.convolve mRadius mKernel dest2 src2).data
          (row * dest2.stride + 4 * col)
      ∧ (CpuColumnConvolutionFilter.convolve mRadius mKernel dest1 src1).data
          (row * dest1.stride + 4 * col)
        = (CpuColumnConvolutionFilter.convolve mRadius mKernel dest2 src2).data
          (row * dest2.stride + 4 * col))
    ∧ ((CpuConvolutionFilter.convolve mRadius mKernel dest1 src1).stride = dest1.stride
      ∧ (CpuRowConvolutionFilter.convolve mRadius mKernel dest1 src1).stride = dest1.stride
      ∧ (CpuColumnConvolutionFilter.convolve mRadius mKernel dest1 src1).stride
          = dest1.stride)
    ∧ (∀ off, (∀ r c, r < src1.rows → c < src1.columns →
          ¬ (r * dest1.stride + 4 * c ≤ off ∧ off < r * dest1.stride + 4 * c + 4)) →
        (CpuConvolutionFilter.convolve mRadius mKernel dest1 src1).data off = dest1.data off
        ∧ (CpuRowConvolutionFilter.convolve mRadius mKernel dest1 src1).data off
            = dest1.data off
        ∧ (CpuColumnConvolutionFilter.convolve mRadius mKernel dest1 src1).data off
            = dest1.data off) := by
  obtain ⟨hf1, hf2⟩ := id hf
  obtain ⟨s11, s12, s13⟩ := id hs1
  obtain ⟨s21, s22, s23⟩ := id hs2
  have d1 : 4 * src1.columns ≤ dest1.stride := by omega
  have d2 : 4 * src2.columns ≤ dest2.stride := by omega
  have n1 : src1.rows < 4294967296 := by omega
  have n2 : src1.columns < 4294967296 := by omega
  have n3 : row + mRadius < 4294967296 := by omega
  have n4 : col + mRadius < 4294967296 := by omega
  have n5 : 2 * mRadius < 4294967296 := by omega
  have hrow2 : row < src2.rows := by omega
  have hcol2 : col < src2.columns := by omega
  have m1 : src2.rows < 4294967296 := by omega
  have m2 : src2.columns < 4294967296 := by omega
  have hfull : CpuConvolutionFilter.pixel (fun x p k => x + src1.data p * mKernel k) 0
        mRadius src1 row col
      = CpuConvolutionFilter.pixel (fun x p k => x + src2.data p * mKernel k) 0
        mRadius src2 row col := by
    rw [full_value mRadius mKernel src1 row col hrow hcol n1 n2 n3 n4 n5,
      full_value mRadius mKernel src2 row col hrow2 hcol2 m1 m2 n3 n4 n5, hr, hc]
    apply Finset.sum_congr rfl
    intro i _
    apply Finset.sum_congr rfl
    intro j _
    rw [hsame (min (row + i - mRadius) (src1.rows - 1))
      (min (col + j - mRadius) (src1.columns - 1)) (by omega) (by omega)]
  have hrowv : CpuRowConvolutionFilter.pixel (fun x p k => x + src1.data p * mKernel k) 0
        mRadius src1 row col
      = CpuRowConvolutionFilter.pixel (fun x p k => x + src2.data p * mKernel k) 0
        mRadius src2 row col := by
    rw [row_value mRadius mKernel src1 row col hcol n2 n4 n5,
      row_value mRadius mKernel src2 row col hcol2 m2 n4 n5, hc]
    apply Finset.sum_congr rfl
    intro k _
    rw [hsame row (min (col + k - mRadius) (src1.columns - 1)) hrow (by omega)]
  have hcolv : CpuColumnConvolutionFilter.pixel (fun x p k => x + src1.data p * mKernel k) 0
        mRadius src1 row col
      = CpuColumnConvolutionFilter.pixel (fun x p k => x + src2.data p * mKernel k) 0
        mRadius src2 row col := by
    rw [column_value mRadius mKernel src1 row col hrow n1 n3 n5,
      column_value mRadius mKernel src2 row col hrow2 m1 n3 n5, hr]
    apply Finset.sum_congr rfl
    intro k _
    rw [hsame (min (row + k - mRadius) (src1.rows - 1)) col (by omega) hcol]
  obtain ⟨_, _, a3, a4, a5⟩ := full_convolve_spec mRadius mKernel dest1 src1 d1
  obtain ⟨_, _, b3, b4, b5⟩ := row_convolve_spec mRadius mKernel dest1 src1 d1
  obtain ⟨_, _, c3, c4, c5⟩ := column_convolve_spec mRadius mKernel dest1 src1 d1
  obtain ⟨_, _, _, a4', _⟩ := full_convolve_spec mRadius mKernel dest2 src2 d2
  obtain ⟨_, _, _, b4', _⟩ := row_convolve_spec mRadius mKernel dest2 src2 d2
  obtain ⟨_, _, _, c4', _⟩ := column_convolve_spec mRadius mKernel dest2 src2 d2
  refine ⟨⟨?_, ?_, ?_⟩, ⟨a3, b3, c3⟩, ?_⟩
  · rw [a4 row col hrow hcol, a4' row col hrow2 hcol2, hfull]
  · rw [b4 row col hrow hcol, b4' row col hrow2 hcol2, hrowv]
  · rw [c4 row col hrow hcol, c4' row col hrow2 hcol2, hcolv]
  · intro off hoff
    have hne := not_cell_of_outside dest1.stride src1.rows src1.columns off hoff
    exact ⟨a5 off hne, b5 off hne, c5 off hne⟩

/-- Witness of C11: the 2x2 samples `[[1,2],[3,4]]` stored with stride 8 and, with
padding holding 99, with stride 12; destinations of strides 8 and 16. -/
theorem stride_independence_witness :
    (CpuRowConvolutionFilter.convolve 1 (fun k => k) (IImage.ofFn 2 2 fun _ _ => 0)
        (IImage.ofFn 2 2 fun r c => 2 * r + c + 1)).data (1 * 8 + 4 * 1)
      = (CpuRowConvolutionFilter.convolve 1 (fun k => k) ⟨2, 2, 16, fun _ => 5⟩
          ⟨2, 2, 12, fun off => if off = 0 then 1 else if off = 4 then 2
            else if off = 12 then 3 else if off = 16 then 4 else 99⟩).data
          (1 * 16 + 4 * 1) :=
  (stride_independence 1 (fun k => k) (IImage.ofFn 2 2 fun _ _ => 0)
    (IImage.ofFn 2 2 fun r c => 2 * r + c + 1) ⟨2, 2, 16, fun _ => 5⟩
    ⟨2, 2, 12, fun off => if off = 0 then 1 else if off = 4 then 2
      else if off = 12 then 3 else if off = 16 then 4 else 99⟩ 1 1
    (by simp [IImage.SameShape, IImage.ofFn]) (by simp [IImage.SameShape])
    rfl rfl
    (by
      intro r c hr hc
      have hr2 : r < 2 := hr
      have hc2 : c < 2 := hc
      interval_cases r <;> interval_cases c <;>
        simp [IImage.sample, IImage.ofFn] <;> norm_num)
    (by simp [Fits, IImage.ofFn]) (by simp [IImage.ofFn]) (by simp [IImage.ofFn])).1.2.1

/-! ## Rounded accumulation -/

theorem int_log_two (a : ℚ) (k : ℤ) (ha : 0 < a) (h1 : (2 : ℚ) ^ k ≤ a)
    (h2 : a < (2 : ℚ) ^ (k + 1)) : Int.log 2 a = k := by
  have hb : 1 < 2 := by norm_num
  have hle : k ≤ Int.log 2 a := (Int.zpow_le_iff_le_log hb ha).mp (by exact_mod_cast h1)
  have hlt : Int.log 2 a < k + 1 := (Int.lt_zpow_iff_log_lt hb ha).mp (by exact_mod_cast h2)
  omega

/-- The value of `roundF32 q` from the binade `2^k <= |q| < 2^(k+1)` of `q`. -/
theorem roundF32_eq (q : ℚ) (k : ℤ) (r : ℚ) (hq : q ≠ 0) (h1 : (2 : ℚ) ^ k ≤ |q|)
    (h2 : |q| < (2 : ℚ) ^ (k + 1))
    (hr : (halfEven (q / (2 : ℚ) ^ (max (k - 23) (-149))) : ℚ)
      * (2 : ℚ) ^ (max (k - 23) (-149)) = r) :
    roundF32 q = r := by
  unfold roundF32
  rw [if_neg hq, int_log_two |q| k (abs_pos.mpr hq) h1 h2]
  exact hr

theorem convolve_eq_rounded_id (mRadius : Nat) (mKernel : Nat → ℚ) (dest src : IImage) :
    CpuConvolutionFilter.convolve mRadius mKernel dest src
        = CpuConvolutionFilter.convolveRounded id mRadius mKernel dest src
    ∧ CpuRowConvolutionFilter.convolve mRadius mKernel dest src
        = CpuRowConvolutionFilter.convolveRounded id mRadius mKernel dest src
    ∧ CpuColumnConvolutionFilter.convolve mRadius mKernel dest src
        = CpuColumnConvolutionFilter.convolveRounded id mRadius mKernel dest src :=
  ⟨rfl, rfl, rfl⟩

theorem row_rounded_spec (rnd : ℚ → ℚ) (mRadius : Nat) (mKernel : Nat → ℚ)
    (dest src : IImage) (hds : 4 * src.columns ≤ dest.stride) :
    (CpuRowConvolutionFilter.convolveRounded rnd mRadius mKernel dest src).stride = dest.stride
    ∧ (∀ row col, row < src.rows → col < src.columns →
        (CpuRowConvolutionFilter.convolveRounded rnd mRadius mKernel dest src).data
            (row * dest.stride + 4 * col)
          = CpuRowConvolutionFilter.pixel (fun x p k => rnd (x + rnd (src.data p * mKernel k))) 0
              mRadius src row col) := by
  unfold CpuRowConvolutionFilter.convolveRounded CpuRowConvolutionFilter.run
  rw [nest_eq]
  obtain ⟨_, _, h3, h4, _⟩ := store_fold dest.stride src.rows src.columns
    (fun row col => CpuRowConvolutionFilter.pixel
      (fun x p k => rnd (x + rnd (src.data p * mKernel k))) 0 mRadius src row col) dest hds
  exact ⟨h3, h4⟩

theorem row_rounded_clamped (rnd : ℚ → ℚ) (mRadius : Nat) (mKernel : Nat → ℚ)
    (dest src : IImage) (row col : Nat) (hs : dest.SameShape src) (hf : Fits mRadius src)
    (hrow : row < src.rows) (hcol : col < src.columns) :
    (CpuRowConvolutionFilter.convolveRounded rnd mRadius mKernel dest src).sample row col
      = (List.range (2 * mRadius + 1)).foldl
          (fun x k => rnd (x + rnd
            (src.sample row (min (col + k - mRadius) (src.columns - 1)) * mKernel k))) 0 := by
  obtain ⟨hf1, hf2⟩ := hf
  obtain ⟨h1, h2, h3⟩ := hs
  have hds : 4 * src.columns ≤ dest.stride := by omega
  have hn : src.columns < 4294967296 := by omega
  have hR : col + mRadius < 4294967296 := by omega
  have h2R : 2 * mRadius < 4294967296 := by omega
  obtain ⟨g1, g2⟩ := row_rounded_spec rnd mRadius mKernel dest src hds
  unfold IImage.sample
  rw [g1, g2 row col hrow hcol, row_pixel_eq _ _ _ _ _ _ hcol hn hR h2R]

theorem forLoop_inv {σ : Type} (P : σ → Prop) (cond : Nat → Bool) (body : Nat → σ → σ)
    (hbody : ∀ k s, P s → P (body k s)) :
    ∀ (fuel k : Nat) (s : σ), P s → P (forLoop cond body fuel k s).2 := by
  intro fuel
  induction fuel with
  | zero => intro k s hs; exact hs
  | succ n ih =>
    intro k s hs
    unfold forLoop
    split
    · exact ih (k + 1) (body k s) (hbody k s hs)
    · exact hs

/-- Accumulating the reads of a tap adds no store. -/
theorem no_write_step (l : List Access) (p k off : Nat)
    (h : Access.destWrite off ∉ l) :
    Access.destWrite off ∉ l ++ [Access.srcRead p, Access.kernelRead k] := by
  simp [h]

theorem row_pixel_no_write (mRadius : Nat) (src : IImage) (row col off : Nat) :
    Access.destWrite off ∉ CpuRowConvolutionFilter.pixel
      (fun l p k => l ++ [Access.srcRead p, Access.kernelRead k]) [] mRadius src row col := by
  unfold CpuRowConvolutionFilter.pixel
  simp only []
  apply forLoop_inv (fun s : Cursor (List Access) => Access.destWrite off ∉ s.x)
  · intro k s hs; exact no_write_step _ _ _ _ hs
  apply forLoop_inv (fun s : Cursor (List Access) => Access.destWrite off ∉ s.x)
  · intro k s hs; exact no_write_step _ _ _ _ hs
  apply forLoop_inv (fun s : Cursor (List Access) => Access.destWrite off ∉ s.x)
  · intro k s hs; exact no_write_step _ _ _ _ hs
  simp

theorem column_pixel_no_write (mRadius : Nat) (src : IImage) (row col off : Nat) :
    Access.destWrite off ∉ CpuColumnConvolutionFilter.pixel
      (fun l p k => l ++ [Access.srcRead p, Access.kernelRead k]) [] mRadius src row col := by
  unfold CpuColumnConvolutionFilter.pixel
  simp only []
  apply forLoop_inv (fun s : Cursor (List Access) => Access.destWrite off ∉ s.x)
  · intro k s hs; exact no_write_step _ _ _ _ hs
  apply forLoop_inv (fun s : Cursor (List Access) => Access.destWrite off ∉ s.x)
  · intro k s hs; exact no_write_step _ _ _ _ hs
  apply forLoop_inv (fun s : Cursor (List Access) => Access.destWrite off ∉ s.x)
  · intro k s hs; exact no_write_step _ _ _ _ hs
  simp

theorem columnLoops_no_write (mRadius cstart cend i rowp off : Nat) (x : List Access)
    (hx : Access.destWrite off ∉ x) :
    Access.destWrite off ∉ CpuConvolutionFilter.columnLoops
      (fun l p k => l ++ [Access.srcRead p, Access.kernelRead k]) mRadius cstart cend i
      rowp x := by
  unfold CpuConvolutionFilter.columnLoops
  simp only []
  apply forLoop_inv (fun s : Cursor (List Access) => Access.destWrite off ∉ s.x)
  · intro k s hs; exact no_write_step _ _ _ _ hs
  apply forLoop_inv (fun s : Cursor (List Access) => Access.destWrite off ∉ s.x)
  · intro k s hs; exact no_write_step _ _ _ _ hs
  apply forLoop_inv (fun s : Cursor (List Access) => Access.destWrite off ∉ s.x)
  · intro k s hs; exact no_write_step _ _ _ _ hs
  exact hx

theorem full_pixel_no_write (mRadius : Nat) (src : IImage) (row col off : Nat) :
    Access.destWrite off ∉ CpuConvolutionFilter.pixel
      (fun l p k => l ++ [Access.srcRead p, Access.kernelRead k]) [] mRadius src row col := by
  unfold CpuConvolutionFilter.pixel
  simp only []
  apply forLoop_inv (fun s : Cursor (List Access) => Access.destWrite off ∉ s.x)
  · intro k s hs; exact columnLoops_no_write _ _ _ _ _ _ _ hs
  apply forLoop_inv (fun s : Cursor (List Access) => Access.destWrite off ∉ s.x)
  · intro k s hs; exact columnLoops_no_write _ _ _ _ _ _ _ hs
  apply forLoop_inv (fun s : Cursor (List Access) => Access.destWrite off ∉ s.x)
  · intro k s hs; exact columnLoops_no_write _ _ _ _ _ _ _ hs
  simp

/-- The stores of a pass are at the source-extent pixels, through the destination's
stride. -/
theorem write_of_mem (ds rows cols : Nat) (px : Nat → Nat → List Access) (off : Nat)
    (hpx : ∀ row col, Access.destWrite off ∉ px row col)
    (h : Access.destWrite off ∈ (forLoop (fun row => decide (row < rows))
      (fun row t =>
        (forLoop (fun col => decide (col < cols))
          (fun col t => t ++ px row col ++ [Access.destWrite (row * ds + 4 * col)])
          cols 0 t).2)
      rows 0 []).2) :
    ∃ row, row < rows ∧ ∃ col, col < cols ∧ off = row * ds + 4 * col := by
  rw [mem_nest] at h
  obtain ⟨row, hrow, col, hcol, h | h⟩ := h
  · exact absurd h (hpx row col)
  · exact ⟨row, hrow, col, hcol, by injection h⟩

/-- C8 (amended): a dimension mismatch is not detected: no `convolve` operation compares
the destination's rows or columns with the source's and none reports an error.  For a
destination with at least the source's rows and columns (`stride >= 4*columns`), whose
dimensions may differ from the source's, each operation completes, every store it makes
is at a sample inside the destination's storage, every pixel `(row, col)` of the source's
extent is stored at the destination's sample `(row, col)`, and every other location of
the destination and its declared dimensions stay as they were. -/
theorem convolve_ignores_dest_dimensions (mRadius : Nat) (mKernel : Nat → ℚ)
    (dest src : IImage) (row col : Nat)
    (hr : src.rows ≤ dest.rows) (hc : src.columns ≤ dest.columns)
    (hst : 4 * dest.columns ≤ dest.stride)
    (hrow : row < src.rows) (hcol : col < src.columns) :
    (∀ off, (Access.destWrite off ∈ CpuConvolutionFilter.accesses mRadius dest.stride src
          ∨ Access.destWrite off ∈ CpuRowConvolutionFilter.accesses mRadius dest.stride src
          ∨ Access.destWrite off
              ∈ CpuColumnConvolutionFilter.accesses mRadius dest.stride src) →
        dest.Holds off ∧ off + 4 ≤ dest.rows * dest.stride)
    ∧ ((CpuConvolutionFilter.convolve mRadius mKernel dest src).data
          (row * dest.stride + 4 * col)
        = CpuConvolutionFilter.pixel (fun x p k => x + src.data p * mKernel k) 0
            mRadius src row col
      ∧ (CpuConvolutionFilter.convolve mRadius mKernel dest src).rows = dest.rows
      ∧ (CpuConvolutionFilter.convolve mRadius mKernel dest src).columns = dest.columns
      ∧ ∀ off, (∀ r c, r < src.rows → c < src.columns →
            ¬ (r * dest.stride + 4 * c ≤ off ∧ off < r * dest.stride + 4 * c + 4)) →
          (CpuConvolutionFilter.convolve mRadius mKernel dest src).data off = dest.data off)
    ∧ ((CpuRowConvolutionFilter.convolve mRadius mKernel dest src).data
          (row * dest.stride + 4 * col)
        = CpuRowConvolutionFilter.pixel (fun x p k => x + src.data p * mKernel k) 0
            mRadius src row col
      ∧ (CpuRowConvolutionFilter.convolve mRadius mKernel dest src).rows = dest.rows
      ∧ (CpuRowConvolutionFilter.convolve mRadius mKernel dest src).columns = dest.columns
      ∧ ∀ off, (∀ r c, r < src.rows → c < src.columns →
            ¬ (r * dest.stride + 4 * c ≤ off ∧ off < r * dest.stride + 4 * c + 4)) →
          (CpuRowConvolutionFilter.convolve mRadius mKernel dest src).data off
            = dest.data off)
    ∧ ((CpuColumnConvolutionFilter.convolve mRadius mKernel dest src).data
          (row * dest.stride + 4 * col)
        = CpuColumnConvolutionFilter.pixel (fun x p k => x + src.data p * mKernel k) 0
            mRadius src row col
      ∧ (CpuColumnConvolutionFilter.convolve mRadius mKernel dest src).rows = dest.rows
      ∧ (CpuColumnConvolutionFilter.convolve mRadius mKernel dest src).columns
          = dest.columns
      ∧ ∀ off, (∀ r c, r < src.rows → c < src.columns →
            ¬ (r * dest.stride + 4 * c ≤ off ∧ off < r * dest.stride + 4 * c + 4)) →
          (CpuColumnConvolutionFilter.convolve mRadius mKernel dest src).data off
            = dest.data off) := by
  have hds : 4 * src.columns ≤ dest.stride := by omega
  have hin : ∀ off, (∃ r, r < src.rows ∧ ∃ c, c < src.columns ∧
      off = r * dest.stride + 4 * c) →
      dest.Holds off ∧ off + 4 ≤ dest.rows * dest.stride := by
    rintro off ⟨r, hr', c, hc', rfl⟩
    exact holds_of_lt dest r c (by omega) (by omega) hst
  obtain ⟨a1, a2, _, a4, a5⟩ := full_convolve_spec mRadius mKernel dest src hds
  obtain ⟨b1, b2, _, b4, b5⟩ := row_convolve_spec mRadius mKernel dest src hds
  obtain ⟨c1, c2, _, c4, c5⟩ := column_convolve_spec mRadius mKernel dest src hds
  refine ⟨?_,
    ⟨a4 row col hrow hcol, a1, a2, fun off h =>
      a5 off (not_cell_of_outside dest.stride src.rows src.columns off h)⟩,
    ⟨b4 row col hrow hcol, b1, b2, fun off h =>
      b5 off (not_cell_of_outside dest.stride src.rows src.columns off h)⟩,
    ⟨c4 row col hrow hcol, c1, c2, fun off h =>
      c5 off (not_cell_of_outside dest.stride src.rows src.columns off h)⟩⟩
  intro off h
  rcases h with h | h | h
  · exact hin off (write_of_mem dest.stride src.rows src.columns _ off
      (fun r c => full_pixel_no_write mRadius src r c off) h)
  · exact hin off (write_of_mem dest.stride src.rows src.columns _ off
      (fun r c => row_pixel_no_write mRadius src r c off) h)
  · exact hin off (write_of_mem dest.stride src.rows src.columns _ off
      (fun r c => column_pixel_no_write mRadius src r c off) h)

/-- Witness of C8 (amended): a 3x3 destination of stride 12 and the 2x2 source
`[[1,2],[3,4]]`, at the source pixel `(1,1)`. -/
theorem convolve_ignores_dest_dimensions_witness :
    (CpuRowConvolutionFilter.convolve 0 (fun _ => 1) (IImage.ofFn 3 3 fun _ _ => 0)
        (IImage.ofFn 2 2 fun r c => 2 * r + c + 1)).data
        (1 * (IImage.ofFn 3 3 fun _ _ => 0).stride + 4 * 1)
      = CpuRowConvolutionFilter.pixel
          (fun x p k => x + (IImage.ofFn 2 2 fun r c => 2 * r + c + 1).data p
            * (fun _ => 1) k) 0 0 (IImage.ofFn 2 2 fun r c => 2 * r + c + 1) 1 1 :=
  (convolve_ignores_dest_dimensions 0 (fun _ => 1) (IImage.ofFn 3 3 fun _ _ => 0)
    (IImage.ofFn 2 2 fun r c => 2 * r + c + 1) 1 1 (by simp [IImage.ofFn])
    (by simp [IImage.ofFn]) (by simp [IImage.ofFn]) (by simp [IImage.ofFn])
    (by simp [IImage.ofFn])).2.2.1.1

/-- C8, counterexample: with a 3x3 destination (all zero) and the 2x2 source
`[[1,2],[3,4]]` the dimensions differ, yet each `convolve` (radius 0, kernel `[1]`)
completes and overwrites the destination's sample `(0,0)` with 1, and its sample `(1,1)`
with 4: the destination is not left as it was. -/
theorem convolve_writes_despite_mismatch :
    (IImage.ofFn 3 3 fun _ _ => 0).rows ≠ (IImage.ofFn 2 2 fun r c => 2 * r + c + 1).rows
    ∧ (IImage.ofFn 3 3 fun _ _ => 0).sample 0 0 = 0
    ∧ (CpuConvolutionFilter.convolve 0 (fun _ => 1) (IImage.ofFn 3 3 fun _ _ => 0)
        (IImage.ofFn 2 2 fun r c => 2 * r + c + 1)).sample 0 0 = 1
    ∧ (CpuRowConvolutionFilter.convolve 0 (fun _ => 1) (IImage.ofFn 3 3 fun _ _ => 0)
        (IImage.ofFn 2 2 fun r c => 2 * r + c + 1)).sample 0 0 = 1
    ∧ (CpuColumnConvolutionFilter.convolve 0 (fun _ => 1) (IImage.ofFn 3 3 fun _ _ => 0)
        (IImage.ofFn 2 2 fun r c => 2 * r + c + 1)).sample 0 0 = 1
    ∧ (CpuConvolutionFilter.convolve 0 (fun _ => 1) (IImage.ofFn 3 3 fun _ _ => 0)
        (IImage.ofFn 2 2 fun r c => 2 * r + c + 1)).sample 1 1 = 4 := by
  have hds : 4 * (IImage.ofFn 2 2 fun r c => (2 : ℚ) * r + c + 1).columns
      ≤ (IImage.ofFn 3 3 fun _ _ => 0).stride := by
    simp [IImage.ofFn]
  obtain ⟨_, _, a3, a4, _⟩ := full_convolve_spec 0 (fun _ => 1)
    (IImage.ofFn 3 3 fun _ _ => 0) (IImage.ofFn 2 2 fun r c => 2 * r + c + 1) hds
  obtain ⟨_, _, b3, b4, _⟩ := row_convolve_spec 0 (fun _ => 1)
    (IImage.ofFn 3 3 fun _ _ => 0) (IImage.ofFn 2 2 fun r c => 2 * r + c + 1) hds
  obtain ⟨_, _, c3, c4, _⟩ := column_convolve_spec 0 (fun _ => 1)
    (IImage.ofFn 3 3 fun _ _ => 0) (IImage.ofFn 2 2 fun r c => 2 * r + c + 1) hds
  have a0 := a4 0 0 (by simp [IImage.ofFn]) (by simp [IImage.ofFn])
  have a1 := a4 1 1 (by simp [IImage.ofFn]) (by simp [IImage.ofFn])
  have b0 := b4 0 0 (by simp [IImage.ofFn]) (by simp [IImage.ofFn])
  have c0 := c4 0 0 (by simp [IImage.ofFn]) (by simp [IImage.ofFn])
  rw [full_value 0 _ _ _ _ (by simp [IImage.ofFn]) (by simp [IImage.ofFn])
    (by simp [IImage.ofFn]) (by simp [IImage.ofFn]) (by norm_num) (by norm_num)
    (by norm_num)] at a0 a1
  rw [row_value 0 _ _ _ _ (by simp [IImage.ofFn])
    (by simp [IImage.ofFn]) (by norm_num) (by norm_num)] at b0
  rw [column_value 0 _ _ _ _ (by simp [IImage.ofFn])
    (by simp [IImage.ofFn]) (by norm_num) (by norm_num)] at c0
  refine ⟨by simp [IImage.ofFn], rfl, ?_, ?_, ?_, ?_⟩
  · unfold IImage.sample
    rw [a3, a0]
    simp [IImage.sample, IImage.ofFn]
  · unfold IImage.sample
    rw [b3, b0]
    simp [IImage.sample, IImage.ofFn]
  · unfold IImage.sample
    rw [c3, c0]
    simp [IImage.sample, IImage.ofFn]
  · unfold IImage.sample
    rw [a3, a1]
    simp [IImage.sample, IImage.ofFn]
    norm_num

/-! ## Averaging kernels under rounding -/

/-- The row pass of radius 1 on a uniform image, its three rounded accumulations
written out, for any rounding `rnd`. -/
theorem row_rounded_three (rnd : ℚ → ℚ) (mKernel : Nat → ℚ) (dest src : IImage)
    (cval w0 w1 w2 : ℚ) (row col : Nat) (hs : dest.SameShape src) (hf : Fits 1 src)
    (hu : ∀ r c, r < src.rows → c < src.columns → src.sample r c = cval)
    (h0 : mKernel 0 = w0) (h1 : mKernel 1 = w1) (h2 : mKernel 2 = w2)
    (hrow : row < src.rows) (hcol : col < src.columns) :
    (CpuRowConvolutionFilter.convolveRounded rnd 1 mKernel dest src).sample row col
      = rnd (rnd (rnd (0 + rnd (cval * w0)) + rnd (cval * w1)) + rnd (cval * w2)) := by
  rw [row_rounded_clamped rnd 1 mKernel dest src row col hs hf hrow hcol]
  simp only [List.range_succ, List.range_zero, List.nil_append, List.cons_append,
    List.foldl_cons, List.foldl_nil, mul_one]
  rw [hu _ _ hrow (by omega), hu _ _ hrow (by omega), hu _ _ hrow (by omega), h0, h1, h2]

/-- C15, counterexample: on the uniform 2x2 image of value `(float)(1/255) =
8421505 / 2^31` the row pass of radius 1 with the kernel `[0.375, 0.25, 0.375]`, whose
weights are non-negative and sum to 1, writes `8421506 / 2^31` at pixel `(0,0)` in
binary32 arithmetic: more than the largest sample of the source. -/
theorem averaging_range_rounding :
    roundF32 (1 / 255) = 8421505 / 2147483648
    ∧ (∀ k, k < 2 * 1 + 1 →
        0 ≤ (fun k : Nat => if k = 1 then (1 / 4 : ℚ) else 3 / 8) k)
    ∧ (∑ k ∈ Finset.range (2 * 1 + 1),
        (fun k : Nat => if k = 1 then (1 / 4 : ℚ) else 3 / 8) k) = 1
    ∧ (∀ r c, (IImage.ofFn 2 2 fun _ _ => 8421505 / 2147483648).sample r c
        = 8421505 / 2147483648)
    ∧ (CpuRowConvolutionFilter.convolveRounded roundF32 1
          (fun k => if k = 1 then 1 / 4 else 3 / 8)
          (IImage.ofFn 2 2 fun _ _ => 0)
          (IImage.ofFn 2 2 fun _ _ => 8421505 / 2147483648)).sample 0 0
        = 8421506 / 2147483648
    ∧ ¬ ((CpuRowConvolutionFilter.convolveRounded roundF32 1
          (fun k => if k = 1 then 1 / 4 else 3 / 8)
          (IImage.ofFn 2 2 fun _ _ => 0)
          (IImage.ofFn 2 2 fun _ _ => 8421505 / 2147483648)).sample 0 0
        ≤ 8421505 / 2147483648) := by
  have hc : roundF32 (1 / 255) = 8421505 / 2147483648 := by
    apply roundF32_eq _ (-8)
    · norm_num
    · norm_num [abs_of_pos]
    · norm_num [abs_of_pos]
    · norm_num [halfEven]
  have hnn : ∀ k, k < 2 * 1 + 1 →
      0 ≤ (fun k : Nat => if k = 1 then (1 / 4 : ℚ) else 3 / 8) k := by
    intro k _
    show 0 ≤ if k = 1 then (1 / 4 : ℚ) else 3 / 8
    split <;> norm_num
  have hsum : (∑ k ∈ Finset.range (2 * 1 + 1),
      (fun k : Nat => if k = 1 then (1 / 4 : ℚ) else 3 / 8) k) = 1 := by
    simp [Finset.sum_range_succ]
    norm_num
  have e1 : roundF32 (8421505 / 2147483648 * (3 / 8)) = 6316129 / 4294967296 := by
    apply roundF32_eq _ (-10)
    · norm_num
    · norm_num [abs_of_pos]
    · norm_num [abs_of_pos]
    · norm_num [halfEven]
  have e2 : roundF32 (0 + 6316129 / 4294967296) = 6316129 / 4294967296 := by
    apply roundF32_eq _ (-10)
    · norm_num
    · norm_num [abs_of_pos]
    · norm_num [abs_of_pos]
    · norm_num [halfEven]
  have e3 : roundF32 (8421505 / 2147483648 * (1 / 4)) = 8421505 / 8589934592 := by
    apply roundF32_eq _ (-10)
    · norm_num
    · norm_num [abs_of_pos]
    · norm_num [abs_of_pos]
    · norm_num [halfEven]
  have e4 : roundF32 (6316129 / 4294967296 + 8421505 / 8589934592)
      = 5263441 / 2147483648 := by
    apply roundF32_eq _ (-9)
    · norm_num
    · norm_num [abs_of_pos]
    · norm_num [abs_of_pos]
    · norm_num [halfEven]
  have e5 : roundF32 (5263441 / 2147483648 + 6316129 / 4294967296)
      = 8421506 / 2147483648 := by
    apply roundF32_eq _ (-8)
    · norm_num
    · norm_num [abs_of_pos]
    · norm_num [abs_of_pos]
    · norm_num [halfEven]
  have hv : (CpuRowConvolutionFilter.convolveRounded roundF32 1
        (fun k => if k = 1 then 1 / 4 else 3 / 8)
        (IImage.ofFn 2 2 fun _ _ => 0)
        (IImage.ofFn 2 2 fun _ _ => 8421505 / 2147483648)).sample 0 0
      = 8421506 / 2147483648 := by
    rw [row_rounded_three roundF32 (fun k => if k = 1 then 1 / 4 else 3 / 8)
      (IImage.ofFn 2 2 fun _ _ => 0) (IImage.ofFn 2 2 fun _ _ => 8421505 / 2147483648)
      (8421505 / 2147483648) (3 / 8) (1 / 4) (3 / 8) 0 0
      (by simp [IImage.SameShape, IImage.ofFn]) (by simp [Fits, IImage.ofFn])
      (fun _ _ _ _ => rfl) rfl rfl rfl (by simp [IImage.ofFn]) (by simp [IImage.ofFn]),
      e1, e2, e3, e4, e5]
  refine ⟨hc, hnn, hsum, fun _ _ => rfl, hv, ?_⟩
  rw [hv]
  norm_num

end EDetect
